import Mathlib

/-!
# Verification of the mqtop core state-tracking layer

A shallow embedding, in Lean 4, of the data structures and algorithms of the
mqtop repository's core subsystems:

* the MQTT wildcard topic matcher (`src/state/metric_tracker.rs`, `topic_matches`)
* the reconnection backoff strategy (`src/mqtt/resilience.rs`, `BackoffStrategy`)
* the bounded per-topic message buffer (`src/state/message_buffer.rs`)
* the numeric metric tracker and its sparkline (`src/state/metric_tracker.rs`)
* the latency/jitter estimator (`src/state/latency_tracker.rs`)
* the schema drift detector (`src/state/schema_tracker.rs`)
* the topic trie (`src/state/topic_tree.rs`)
* the device health classifier (`src/state/device_tracker.rs`)

Modelling conventions, used throughout:

* Rust strings are modelled as lists of characters (`Str := List Char`);
  `str::split('/')` is the structural recursion `splitSlash`.  A Lean string
  literal `"s".data` denotes the corresponding character list.
* Rust `u64`/`u32`/`usize` values are modelled as `Nat`, with saturating or
  wrapping arithmetic written out explicitly (`Nat` subtraction is already
  saturating, matching `saturating_sub`).
* Rust `f64` values that originate from JSON numbers or duration arithmetic
  are modelled as `ℚ`; the finite sentinel constants `f64::MAX` / `f64::MIN`
  are modelled by their exact rational values, and `as u64` casts by
  `ratToU64` (clamp to `[0, u64::MAX]`, truncate toward zero).
* `std::time::Instant` / `Duration` values are inputs of the model: every
  function of the source that calls `Instant::now()` takes the current
  instant as an explicit argument, and all `now()` calls inside one source
  function invocation denote that same instant.  Durations are exact
  nanosecond counts (`Nat`), as in Rust.
* `HashMap` is modelled as an association list with replace-or-append
  insertion (`assocUpsert`) and lookup of the first matching key.
* `serde_json::Value` is modelled by the inductive `Json`; a fallible parse
  `serde_json::from_slice` is modelled by passing the parse result
  (`Option Json`) to the function under study.
-/

namespace Mqtop

/-- Rust strings, modelled as character lists. -/
abbrev Str := List Char

/-- `u64::MAX`, the saturation bound of Rust `u64` arithmetic. -/
def U64MAX : Nat := 2 ^ 64 - 1

/-- `str::split('/')`: split a string at every `'/'`, keeping empty pieces
(the result is never empty; splitting the empty string yields `[[]]`,
matching Rust's `"".split('/')` yielding one empty piece). -/
def splitSlash : Str → List Str
  | [] => [[]]
  | c :: rest =>
      if c = '/' then [] :: splitSlash rest
      else
        match splitSlash rest with
        | s :: ss => (c :: s) :: ss
        | [] => [[c]]

theorem splitSlash_ne_nil (l : Str) : splitSlash l ≠ [] := by
  induction l with
  | nil => simp [splitSlash]
  | cons c rest ih =>
      simp only [splitSlash]
      split
      · simp
      · cases h : splitSlash rest <;> simp

/-- Joining with `'/'`, the left inverse of `splitSlash`. -/
def joinSlash : List Str → Str
  | [] => []
  | [s] => s
  | s :: rest => s ++ '/' :: joinSlash rest

theorem joinSlash_splitSlash (l : Str) : joinSlash (splitSlash l) = l := by
  induction l with
  | nil => simp [splitSlash, joinSlash]
  | cons c rest ih =>
      simp only [splitSlash]
      by_cases hc : c = '/'
      · subst hc
        simp only [if_pos rfl]
        cases h : splitSlash rest with
        | nil => exact absurd h (splitSlash_ne_nil rest)
        | cons s ss =>
            rw [h] at ih
            simp [joinSlash, ih]
      · simp only [if_neg hc]
        cases h : splitSlash rest with
        | nil => exact absurd h (splitSlash_ne_nil rest)
        | cons s ss =>
            rw [h] at ih
            cases ss with
            | nil => simp_all [joinSlash]
            | cons s' ss' => simp_all [joinSlash]

theorem splitSlash_injective : Function.Injective splitSlash := by
  intro a b h
  have := joinSlash_splitSlash a
  rw [h, joinSlash_splitSlash] at this
  exact this.symm

/-- Association-list lookup of the first entry with the given key
(models `HashMap::get`). -/
def assocFind {α β : Type} [DecidableEq α] (k : α) : List (α × β) → Option β
  | [] => none
  | (k', v) :: rest => if k' = k then some v else assocFind k rest

/-- Association-list insert: replace the first entry with the given key, or
append a fresh entry (models `HashMap::insert` / the entry API). -/
def assocUpsert {α β : Type} [DecidableEq α] (k : α) (v : β) :
    List (α × β) → List (α × β)
  | [] => [(k, v)]
  | (k', v') :: rest =>
      if k' = k then (k, v) :: rest else (k', v') :: assocUpsert k v rest

/-- Association-list removal of the first entry with the given key
(models `HashMap::remove`). -/
def assocErase {α β : Type} [DecidableEq α] (k : α) :
    List (α × β) → List (α × β)
  | [] => []
  | (k', v') :: rest =>
      if k' = k then rest else (k', v') :: assocErase k rest

theorem assocFind_upsert_self {α β : Type} [DecidableEq α] (k : α) (v : β)
    (l : List (α × β)) : assocFind k (assocUpsert k v l) = some v := by
  induction l with
  | nil => simp [assocFind, assocUpsert]
  | cons p rest ih =>
      obtain ⟨k', v'⟩ := p
      by_cases h : k' = k <;> simp [assocFind, assocUpsert, h, ih]

theorem assocFind_upsert_ne {α β : Type} [DecidableEq α] (k k' : α) (v : β)
    (l : List (α × β)) (h : k ≠ k') :
    assocFind k' (assocUpsert k v l) = assocFind k' l := by
  induction l with
  | nil => simp [assocFind, assocUpsert, h]
  | cons p rest ih =>
      obtain ⟨k₀, v₀⟩ := p
      by_cases h0 : k₀ = k
      · subst h0
        simp [assocFind, assocUpsert, h, Ne.symm h]
      · by_cases h1 : k₀ = k' <;>
          simp [assocFind, assocUpsert, h0, h1, Ne.symm h, ih]

/-! ## C1 — the MQTT wildcard matcher (`topic_matches`)

Source: `src/state/metric_tracker.rs`.  The Rust loop walks two cursors over
the `/`-split pattern and topic; it is embedded as structural recursion over
the two segment lists.  The loop exits when either list is exhausted, and
then requires both to be exhausted (`pi == pattern_parts.len() && ti ==
topic_parts.len()`). -/

/-- The `while pi < .. && ti < ..` loop of `topic_matches`, including the
post-loop check that both cursors reached the end of their lists. -/
def matchLoop : List Str → List Str → Bool
  | [], [] => true
  | [], _ :: _ => false
  | _ :: _, [] => false
  | p :: ps, t :: ts =>
      if p = "#".data then true
      else if p = "+".data then matchLoop ps ts
      else if p = t then matchLoop ps ts
      else false

/-- `topic_matches(pattern, topic)` from `src/state/metric_tracker.rs`:
special-cases the bare `"#"` pattern, then runs the cursor loop over the
`/`-split segments. -/
def topicMatches (pattern topic : Str) : Bool :=
  if pattern = "#".data then true
  else matchLoop (splitSlash pattern) (splitSlash topic)


/-- C1: a pattern segment `#` matches the remainder of the topic including
zero remaining segments.  The code violates this: against the deep topic
`a/b/c/d` the pattern `a/#` works, but against the bare prefix `a` the
cursor loop exits with the topic exhausted before ever reading the `#`
segment, so `topic_matches` returns `false` (only the bare pattern `"#"`
is special-cased to match everything). -/
theorem C1_hash_matches_zero_segments :
    topicMatches "a/#".data "a".data = false ∧
    topicMatches "a/#".data "a/b/c/d".data = true ∧
    topicMatches "#".data "a/b".data = true := by
  refine ⟨?_, ?_, ?_⟩ <;> decide

/-! ## C2 — the reconnection backoff strategy (`BackoffStrategy`)

Source: `src/mqtt/resilience.rs`.  Delays are nanosecond counts
(`Duration`), the base delay is a millisecond count (`u64`), the jitter
factor an `f64` modelled as `ℚ`.  `delay.as_millis() as u64 + jitter` is a
release-profile `u64` addition, modelled as wrapping (`% 2 ^ 64`). -/

structure BackoffStrategy where
  /-- `base_delay_ms : u64`. -/
  baseDelayMs : Nat
  /-- `max_delay : Duration`, in nanoseconds. -/
  maxDelayNs : Nat
  /-- `max_attempts : Option<u32>`, `none` = retry forever. -/
  maxAttempts : Option Nat
  /-- `jitter_factor : f64`. -/
  jitterFactor : ℚ

/-- Truncation of a rational toward zero into `Nat` (negative ↦ 0). -/
def ratTruncNat (q : ℚ) : Nat := q.num.toNat / q.den

/-- The Rust cast `q as u64`: clamp into `[0, u64::MAX]`, truncating toward
zero. -/
def ratToU64 (q : ℚ) : Nat := min (ratTruncNat q) U64MAX

/-- The attempt-limit check opening `delay_for_attempt`:
`if let Some(max) = self.max_attempts { if attempt > max { return None } }`. -/
def BackoffStrategy.exceedsMaxAttempts (s : BackoffStrategy)
    (attempt : Nat) : Bool :=
  match s.maxAttempts with
  | some m => attempt > m
  | none => false

/-- The delay computation of `delay_for_attempt` (the code past the
attempt-limit check): exponential backoff `base * 2^(attempt-1)` with the
exponent capped at 20 and the product saturating at `u64::MAX`
(`saturating_mul`), capped at `max_delay`, plus the deterministic
pseudo-jitter `(attempt * 17) % ((delay.as_millis() as f64 * jitter_factor)
as u64)` (zero when that range is zero), capped again at `max_delay`.
Result in nanoseconds; the `u64` addition wraps (release profile). -/
def BackoffStrategy.delayValue (s : BackoffStrategy) (attempt : Nat) : Nat :=
  let exponent := min (attempt - 1) 20
  let delayMsRaw := min (s.baseDelayMs * 2 ^ exponent) U64MAX
  let delayNs := min (delayMsRaw * 1000000) s.maxDelayNs
  let delayMs := delayNs / 1000000
  let jitterRange := ratToU64 ((delayMs : ℚ) * s.jitterFactor)
  let jitter := if jitterRange > 0 then (attempt * 17) % jitterRange else 0
  min (((delayMs + jitter) % 2 ^ 64) * 1000000) s.maxDelayNs

/-- `BackoffStrategy::delay_for_attempt` from `src/mqtt/resilience.rs`:
`None` past the configured attempt limit, otherwise `delayValue`. -/
def BackoffStrategy.delayForAttempt (s : BackoffStrategy) (attempt : Nat) :
    Option Nat :=
  if s.exceedsMaxAttempts attempt then none
  else some (s.delayValue attempt)

/-- Modelled from the spec's words, for refinement comparison with
`delayForAttempt`: `delay = min(maxDelay, baseDelay * 2^min(attempt-1, 20))`,
jitter `(attempt * 17) mod (delay * jitterFactor)` (zero when that range is
zero), the result capped again at `maxDelay`; no delay once
`attempt > maxAttempts` when a limit is configured.  The delay is computed in
milliseconds and converted to nanoseconds at the end. -/
def specNextDelayVal (s : BackoffStrategy) (attempt : Nat) : Nat :=
  let delayMs := min (s.maxDelayNs / 1000000)
    (s.baseDelayMs * 2 ^ min (attempt - 1) 20)
  let range := ratTruncNat ((delayMs : ℚ) * s.jitterFactor)
  let jitter := if range > 0 then (attempt * 17) % range else 0
  min s.maxDelayNs ((delayMs + jitter) * 1000000)

/-- The `Option`-level wrapper of `specNextDelayVal` (see there). -/
def specNextDelay (s : BackoffStrategy) (attempt : Nat) : Option Nat :=
  match s.maxAttempts with
  | some m =>
      if attempt > m then none
      else some (specNextDelayVal s attempt)
  | none => some (specNextDelayVal s attempt)

theorem ratTruncNat_le_of_le (q : ℚ) (n : Nat) (h : q ≤ (n : ℚ)) :
    ratTruncNat q ≤ n := by
  unfold ratTruncNat
  rcases le_or_lt q.num 0 with hq | hq
  · have h0 : q.num.toNat = 0 := Int.toNat_of_nonpos hq
    simp [h0]
  · have hden : (0 : ℚ) < (q.den : ℚ) := by exact_mod_cast q.pos
    have hnum : (q.num : ℚ) = q * (q.den : ℚ) := by
      have hd : (q.den : ℚ) ≠ 0 := ne_of_gt hden
      calc (q.num : ℚ) = (q.num : ℚ) / (q.den : ℚ) * (q.den : ℚ) :=
            (div_mul_cancel₀ _ hd).symm
        _ = q * (q.den : ℚ) := by rw [Rat.num_div_den q]
    have hq' : (q.num : ℚ) ≤ (n : ℚ) * (q.den : ℚ) := by
      rw [hnum]
      exact mul_le_mul_of_nonneg_right h (le_of_lt hden)
    have hle' : q.num ≤ (n : ℤ) * (q.den : ℤ) := by exact_mod_cast hq'
    have hle'' : q.num.toNat ≤ n * q.den :=
      Int.toNat_le.mpr (by exact_mod_cast hle')
    calc q.num.toNat / q.den ≤ n * q.den / q.den :=
          Nat.div_le_div_right hle''
      _ = n := Nat.mul_div_cancel n q.pos


/-- The code's delay value agrees with the spec formula whenever the
configuration stays clear of `u64` saturation: jitter factor in `[0,1]`
(enforced by `with_jitter`'s clamp), base delay small enough that
`base * 2^20` cannot saturate, and a whole-millisecond `max_delay` small
enough that delay-plus-jitter cannot wrap. -/
theorem BackoffStrategy.delayValue_eq_spec (s : BackoffStrategy) (n : Nat)
    (hjf0 : 0 ≤ s.jitterFactor) (hjf1 : s.jitterFactor ≤ 1)
    (hbase : s.baseDelayMs * 2 ^ 21 ≤ U64MAX)
    (hdiv : s.maxDelayNs % 1000000 = 0)
    (hmax2 : 2 * (s.maxDelayNs / 1000000) ≤ U64MAX) :
    s.delayValue n = specNextDelayVal s n := by
  simp only [BackoffStrategy.delayValue, specNextDelayVal, ratToU64]
  set base := s.baseDelayMs with hbase_def
  set maxNs := s.maxDelayNs with hmax_def
  set jf := s.jitterFactor with hjf_def
  set M := maxNs / 1000000 with hM_def
  set e := min (n - 1) 20 with he_def
  set A := base * 2 ^ e with hA_def
  have hMN : maxNs = M * 1000000 := by omega
  have hA21 : A ≤ U64MAX := by
    have h2 : (2 : Nat) ^ e ≤ 2 ^ 21 := by
      apply Nat.pow_le_pow_right (by norm_num)
      omega
    calc A = base * 2 ^ e := rfl
      _ ≤ base * 2 ^ 21 := Nat.mul_le_mul_left _ h2
      _ ≤ U64MAX := hbase
  have hXY : min (min A U64MAX * 1000000) maxNs / 1000000 = min M A := by
    rw [hMN]
    unfold Mqtop.U64MAX at hA21 ⊢
    omega
  rw [hXY]
  set dm := min M A with hdm_def
  have hr_le : ratTruncNat ((dm : ℚ) * jf) ≤ dm := by
    apply ratTruncNat_le_of_le
    calc (dm : ℚ) * jf ≤ (dm : ℚ) * 1 :=
          mul_le_mul_of_nonneg_left hjf1 (by positivity)
      _ = (dm : ℚ) := mul_one _
  set r := ratTruncNat ((dm : ℚ) * jf) with hr_def
  have hdmM : dm ≤ M := min_le_left _ _
  have hrange : min r U64MAX = r := by
    apply min_eq_left
    unfold Mqtop.U64MAX at hmax2 ⊢
    omega
  rw [hrange]
  split
  · rename_i hr_pos
    have hj : (n * 17) % r < r := Nat.mod_lt _ hr_pos
    rw [hMN]
    unfold Mqtop.U64MAX at hmax2
    omega
  · rw [hMN]
    unfold Mqtop.U64MAX at hmax2
    omega

/-- C2: `nextDelay(n)` is `None` exactly when an attempt limit is
configured and exceeded; otherwise it is
`min(maxDelay, baseDelay * 2^min(n-1,20))` plus the pseudo-jitter
`(n * 17) mod (delay * jitterFactor)` (zero when that range is zero),
capped again at `maxDelay` (the formula `specNextDelay`, modelled from the
spec; equality holds away from `u64` saturation).  Concretely, with jitter
factor 0 and base 100 ms the delays for attempts 1..4 are exactly 100 ms,
200 ms, 400 ms, 800 ms, and with base 1 s, `maxDelay` 10 s, and any jitter
factor in `[0,1]`, `nextDelay(20)` is exactly 10 s. -/
theorem C2_backoff_delay :
    (∀ (s : BackoffStrategy) (n : Nat),
      s.delayForAttempt n = none ↔
        ∃ m, s.maxAttempts = some m ∧ m < n) ∧
    (∀ (s : BackoffStrategy) (n : Nat),
      0 ≤ s.jitterFactor → s.jitterFactor ≤ 1 →
      s.baseDelayMs * 2 ^ 21 ≤ U64MAX →
      s.maxDelayNs % 1000000 = 0 →
      2 * (s.maxDelayNs / 1000000) ≤ U64MAX →
      s.delayForAttempt n = specNextDelay s n) ∧
    (∀ k : Nat, k < 4 →
      (BackoffStrategy.mk 100 60000000000 none 0).delayForAttempt (k + 1)
        = some (100 * 2 ^ k * 1000000)) ∧
    (∀ jf : ℚ, 0 ≤ jf → jf ≤ 1 →
      (BackoffStrategy.mk 1000 10000000000 none jf).delayForAttempt 20
        = some 10000000000) := by
  refine ⟨?_, ?_, ?_, ?_⟩
  · intro s n
    unfold BackoffStrategy.delayForAttempt BackoffStrategy.exceedsMaxAttempts
    cases hma : s.maxAttempts with
    | none => simp
    | some m =>
        by_cases h : m < n <;> simp [h]
  · intro s n hjf0 hjf1 hbase hdiv hmax2
    unfold BackoffStrategy.delayForAttempt BackoffStrategy.exceedsMaxAttempts
      specNextDelay
    cases hma : s.maxAttempts with
    | none => simp [BackoffStrategy.delayValue_eq_spec s n hjf0 hjf1 hbase hdiv hmax2]
    | some m =>
        by_cases h : m < n <;>
          simp [h, BackoffStrategy.delayValue_eq_spec s n hjf0 hjf1 hbase hdiv hmax2]
  · intro k hk
    interval_cases k <;>
      simp [BackoffStrategy.delayForAttempt, BackoffStrategy.exceedsMaxAttempts,
        BackoffStrategy.delayValue, ratToU64, ratTruncNat, U64MAX]
  · intro jf hjf0 hjf1
    unfold BackoffStrategy.delayForAttempt BackoffStrategy.exceedsMaxAttempts
    simp only [BackoffStrategy.delayValue, ratToU64]
    norm_num [U64MAX]
    have hr_le : ratTruncNat ((10000 : ℚ) * jf) ≤ 10000 := by
      apply ratTruncNat_le_of_le _ 10000
      calc (10000 : ℚ) * jf ≤ (10000 : ℚ) * 1 :=
            mul_le_mul_of_nonneg_left hjf1 (by norm_num)
        _ ≤ ((10000 : Nat) : ℚ) := by norm_num
    set r := ratTruncNat ((10000 : ℚ) * jf) with hr_def
    have hrr : r ⊓ 18446744073709551615 = r := by omega
    rw [hrr]
    split
    · rename_i hr_pos
      have hj : 340 % r < r := Nat.mod_lt _ hr_pos
      omega
    · omega

/-- Witness for `C2_backoff_delay`: its four parts applied at concrete
configurations and attempt numbers. -/
theorem C2_backoff_delay_witness :
    ((BackoffStrategy.mk 100 60000000000 (some 3) 0).delayForAttempt 4
      = none) ∧
    ((BackoffStrategy.mk 100 60000000000 none 0).delayForAttempt 2
      = specNextDelay (BackoffStrategy.mk 100 60000000000 none 0) 2) ∧
    ((BackoffStrategy.mk 100 60000000000 none 0).delayForAttempt (0 + 1)
      = some (100 * 2 ^ 0 * 1000000)) ∧
    ((BackoffStrategy.mk 1000 10000000000 none (1/2)).delayForAttempt 20
      = some 10000000000) := by
  refine ⟨?_, ?_, ?_, ?_⟩
  · exact (C2_backoff_delay.1 _ 4).mpr ⟨3, rfl, by decide⟩
  · exact C2_backoff_delay.2.1 _ 2 (by decide) (by decide) (by decide)
      (by decide) (by decide)
  · exact C2_backoff_delay.2.2.1 0 (by decide)
  · exact C2_backoff_delay.2.2.2 (1/2) (by norm_num) (by norm_num)


/-! ## C3 / C6 — the bounded per-topic message buffer (`MessageBuffer`)

Source: `src/state/message_buffer.rs` (message type from
`src/mqtt/message.rs`, its `DateTime<Utc>` timestamp an input of the
model). -/

structure MqttMessage where
  topic : Str
  /-- `payload : Vec<u8>`. -/
  payload : List Nat
  /-- `qos : u8`. -/
  qos : Nat
  retain : Bool
  /-- `timestamp : DateTime<Utc>`, unix milliseconds. -/
  timestamp : Int
deriving DecidableEq

structure MessageBuffer where
  /-- `buffers : HashMap<String, VecDeque<MqttMessage>>`. -/
  buffers : List (Str × List MqttMessage)
  maxPerTopic : Nat
  totalStored : Nat
deriving DecidableEq

/-- `MessageBuffer::new`. -/
def MessageBuffer.new (maxPerTopic : Nat) : MessageBuffer :=
  ⟨[], maxPerTopic, 0⟩

/-- `MessageBuffer::push`: fetch (or create) the topic's queue; if it is at
capacity, pop the oldest message and decrement `total_stored`
(saturating); then push the message and increment `total_stored`. -/
def MessageBuffer.push (b : MessageBuffer) (m : MqttMessage) : MessageBuffer :=
  let q := (assocFind m.topic b.buffers).getD []
  let qt :=
    if q.length ≥ b.maxPerTopic then (q.drop 1, b.totalStored - 1)
    else (q, b.totalStored)
  { b with
    buffers := assocUpsert m.topic (qt.1 ++ [m]) b.buffers
    totalStored := qt.2 + 1 }

/-- `MessageBuffer::count_for_topic`. -/
def MessageBuffer.countForTopic (b : MessageBuffer) (topic : Str) : Nat :=
  ((assocFind topic b.buffers).getD []).length

/-- `MessageBuffer::clear`. -/
def MessageBuffer.clear (b : MessageBuffer) : MessageBuffer :=
  { b with buffers := [], totalStored := 0 }

/-- `MessageBuffer::clear_topic`: remove the topic's queue and subtract its
length from `total_stored` (saturating). -/
def MessageBuffer.clearTopic (b : MessageBuffer) (topic : Str) :
    MessageBuffer :=
  match assocFind topic b.buffers with
  | some q =>
      { b with
        buffers := assocErase topic b.buffers
        totalStored := b.totalStored - q.length }
  | none => b

/-- The operations of the claim: `push`, `clear`, `clear_topic`. -/
inductive BufferOp where
  | push (m : MqttMessage)
  | clear
  | clearTopic (t : Str)
deriving DecidableEq

/-- Apply one buffer operation. -/
def MessageBuffer.applyOp (b : MessageBuffer) : BufferOp → MessageBuffer
  | .push m => b.push m
  | .clear => b.clear
  | .clearTopic t => b.clearTopic t

/-- Run a sequence of buffer operations. -/
def MessageBuffer.runOps (b : MessageBuffer) (ops : List BufferOp) :
    MessageBuffer :=
  ops.foldl MessageBuffer.applyOp b

/-- The sum of the per-topic queue lengths. -/
def bufLenSum (l : List (Str × List MqttMessage)) : Nat :=
  (l.map fun e => e.2.length).sum

theorem bufLenSum_upsert_none (k : Str) (v : List MqttMessage)
    (l : List (Str × List MqttMessage)) (h : assocFind k l = none) :
    bufLenSum (assocUpsert k v l) = bufLenSum l + v.length := by
  induction l with
  | nil => simp [assocFind, assocUpsert, bufLenSum]
  | cons p rest ih =>
      obtain ⟨k₀, v₀⟩ := p
      by_cases h0 : k₀ = k
      · simp [assocFind, h0] at h
      · simp only [assocFind, h0, if_neg, ite_false] at h
        simp only [assocUpsert, h0, ite_false, bufLenSum, List.map_cons,
          List.sum_cons, if_neg]
        have := ih h
        simp only [bufLenSum] at this
        omega

theorem bufLenSum_upsert_some (k : Str) (v q : List MqttMessage)
    (l : List (Str × List MqttMessage)) (h : assocFind k l = some q) :
    bufLenSum (assocUpsert k v l) + q.length = bufLenSum l + v.length := by
  induction l with
  | nil => simp [assocFind] at h
  | cons p rest ih =>
      obtain ⟨k₀, v₀⟩ := p
      by_cases h0 : k₀ = k
      · simp only [assocFind, h0, ite_true, Option.some.injEq] at h
        subst h
        simp only [assocUpsert, h0, ite_true, bufLenSum, List.map_cons,
          List.sum_cons]
        omega
      · simp only [assocFind, h0, ite_false] at h
        simp only [assocUpsert, h0, ite_false, bufLenSum, List.map_cons,
          List.sum_cons]
        have := ih h
        simp only [bufLenSum] at this
        omega

theorem mem_assocUpsert {α β : Type} [DecidableEq α] (k : α) (v : β)
    (l : List (α × β)) (e : α × β) (he : e ∈ assocUpsert k v l) :
    e = (k, v) ∨ e ∈ l := by
  induction l with
  | nil => simpa [assocUpsert] using he
  | cons p rest ih =>
      obtain ⟨k₀, v₀⟩ := p
      by_cases h0 : k₀ = k
      · simp only [assocUpsert, h0, ite_true, List.mem_cons] at he
        rcases he with he | he
        · exact Or.inl he
        · exact Or.inr (List.mem_cons_of_mem _ he)
      · simp only [assocUpsert, h0, ite_false, List.mem_cons] at he
        rcases he with he | he
        · exact Or.inr (by simp [he])
        · rcases ih he with h | h
          · exact Or.inl h
          · exact Or.inr (List.mem_cons_of_mem _ h)

theorem mem_assocErase {α β : Type} [DecidableEq α] (k : α)
    (l : List (α × β)) (e : α × β) (he : e ∈ assocErase k l) : e ∈ l := by
  induction l with
  | nil => simpa [assocErase] using he
  | cons p rest ih =>
      obtain ⟨k₀, v₀⟩ := p
      by_cases h0 : k₀ = k
      · simp only [assocErase, h0, ite_true] at he
        exact List.mem_cons_of_mem _ he
      · simp only [assocErase, h0, ite_false, List.mem_cons] at he
        rcases he with he | he
        · simp [he]
        · exact List.mem_cons_of_mem _ (ih he)

theorem bufLenSum_erase_some (k : Str) (q : List MqttMessage)
    (l : List (Str × List MqttMessage)) (h : assocFind k l = some q) :
    bufLenSum (assocErase k l) + q.length = bufLenSum l := by
  induction l with
  | nil => simp [assocFind] at h
  | cons p rest ih =>
      obtain ⟨k₀, v₀⟩ := p
      by_cases h0 : k₀ = k
      · simp only [assocFind, h0, ite_true, Option.some.injEq] at h
        subst h
        simp [assocErase, h0, bufLenSum]
        omega
      · simp only [assocFind, h0, ite_false] at h
        simp only [assocErase, h0, ite_false, bufLenSum, List.map_cons,
          List.sum_cons]
        have := ih h
        simp only [bufLenSum] at this
        omega

theorem assocFind_len_le_bufLenSum (k : Str) (q : List MqttMessage)
    (l : List (Str × List MqttMessage)) (h : assocFind k l = some q) :
    q.length ≤ bufLenSum l := by
  induction l with
  | nil => simp [assocFind] at h
  | cons p rest ih =>
      obtain ⟨k₀, v₀⟩ := p
      by_cases h0 : k₀ = k
      · simp only [assocFind, h0, ite_true, Option.some.injEq] at h
        subst h
        simp [bufLenSum]
      · simp only [assocFind, h0, ite_false] at h
        have := ih h
        simp only [bufLenSum, List.map_cons, List.sum_cons] at this ⊢
        omega


theorem assocFind_mem {α β : Type} [DecidableEq α] (k : α) (v : β)
    (l : List (α × β)) (h : assocFind k l = some v) : (k, v) ∈ l := by
  induction l with
  | nil => simp [assocFind] at h
  | cons p rest ih =>
      obtain ⟨k₀, v₀⟩ := p
      by_cases h0 : k₀ = k
      · simp only [assocFind, h0, ite_true, Option.some.injEq] at h
        simp [h0, h]
      · simp only [assocFind, h0, ite_false] at h
        exact List.mem_cons_of_mem _ (ih h)

/-- The invariant of the claim: positive capacity, every per-topic queue
within capacity, and `total_stored` equal to the sum of queue lengths. -/
def BufferInv (b : MessageBuffer) : Prop :=
  1 ≤ b.maxPerTopic ∧
  (∀ e ∈ b.buffers, e.2.length ≤ b.maxPerTopic) ∧
  b.totalStored = bufLenSum b.buffers

theorem BufferInv.push {b : MessageBuffer} (h : BufferInv b)
    (m : MqttMessage) : BufferInv (b.push m) := by
  obtain ⟨hcap, hlen, htot⟩ := h
  unfold MessageBuffer.push
  cases hf : assocFind m.topic b.buffers with
  | none =>
      simp only [hf, Option.getD_none, List.length_nil, ge_iff_le,
        Nat.le_zero]
      have hne : ¬ b.maxPerTopic = 0 := by omega
      simp only [hne, ite_false, List.nil_append]
      refine ⟨hcap, ?_, ?_⟩
      · intro e he
        rcases mem_assocUpsert _ _ _ _ he with he | he
        · subst he; simpa using hcap
        · exact hlen e he
      · simpa [bufLenSum_upsert_none _ _ _ hf] using htot
  | some q =>
      have hqmem := assocFind_mem _ _ _ hf
      have hqle : q.length ≤ b.maxPerTopic := hlen _ hqmem
      have hqsum : q.length ≤ bufLenSum b.buffers :=
        assocFind_len_le_bufLenSum _ _ _ hf
      simp only [hf, Option.getD_some, ge_iff_le]
      by_cases hql : b.maxPerTopic ≤ q.length
      · have hq1 : 1 ≤ q.length := le_trans hcap hql
        simp only [hql, ite_true]
        refine ⟨hcap, ?_, ?_⟩
        · intro e he
          rcases mem_assocUpsert _ _ _ _ he with he | he
          · subst he
            simp only [List.length_append, List.length_drop,
              List.length_singleton]
            omega
          · exact hlen e he
        · have hs := bufLenSum_upsert_some m.topic (q.drop 1 ++ [m]) q
            b.buffers hf
          simp only [List.length_append, List.length_drop,
            List.length_singleton] at hs
          simp only
          omega
      · simp only [hql, ite_false]
        refine ⟨hcap, ?_, ?_⟩
        · intro e he
          rcases mem_assocUpsert _ _ _ _ he with he | he
          · subst he
            simp only [List.length_append, List.length_singleton]
            omega
          · exact hlen e he
        · have hs := bufLenSum_upsert_some m.topic (q ++ [m]) q b.buffers hf
          simp only [List.length_append, List.length_singleton] at hs
          simp only
          omega

theorem BufferInv.clear {b : MessageBuffer} (h : BufferInv b) :
    BufferInv b.clear := by
  obtain ⟨hcap, _, _⟩ := h
  exact ⟨hcap, by simp [MessageBuffer.clear], by simp [MessageBuffer.clear, bufLenSum]⟩

theorem BufferInv.clearTopic {b : MessageBuffer} (h : BufferInv b)
    (t : Str) : BufferInv (b.clearTopic t) := by
  obtain ⟨hcap, hlen, htot⟩ := h
  unfold MessageBuffer.clearTopic
  cases hf : assocFind t b.buffers with
  | none => exact ⟨hcap, hlen, htot⟩
  | some q =>
      refine ⟨hcap, ?_, ?_⟩
      · intro e he
        exact hlen e (mem_assocErase _ _ _ he)
      · have hs := bufLenSum_erase_some t q b.buffers hf
        have hqsum : q.length ≤ bufLenSum b.buffers :=
          assocFind_len_le_bufLenSum _ _ _ hf
        simp only
        omega

theorem BufferInv.applyOp {b : MessageBuffer} (h : BufferInv b)
    (op : BufferOp) : BufferInv (b.applyOp op) := by
  cases op with
  | push m => exact h.push m
  | clear => exact h.clear
  | clearTopic t => exact h.clearTopic t

theorem BufferInv.runOps {b : MessageBuffer} (h : BufferInv b)
    (ops : List BufferOp) : BufferInv (b.runOps ops) := by
  induction ops generalizing b with
  | nil => exact h
  | cons op rest ih => exact ih (h.applyOp op)

theorem MessageBuffer.applyOp_maxPerTopic (b : MessageBuffer)
    (op : BufferOp) : (b.applyOp op).maxPerTopic = b.maxPerTopic := by
  cases op with
  | push m => rfl
  | clear => rfl
  | clearTopic t =>
      cases hf : assocFind t b.buffers <;>
        simp [MessageBuffer.applyOp, MessageBuffer.clearTopic, hf]

theorem MessageBuffer.runOps_maxPerTopic (b : MessageBuffer)
    (ops : List BufferOp) : (b.runOps ops).maxPerTopic = b.maxPerTopic := by
  induction ops generalizing b with
  | nil => rfl
  | cons op rest ih =>
      calc (b.runOps (op :: rest)).maxPerTopic
          = ((b.applyOp op).runOps rest).maxPerTopic := rfl
        _ = (b.applyOp op).maxPerTopic := ih _
        _ = b.maxPerTopic := b.applyOp_maxPerTopic op


theorem MessageBuffer.push_queue_at (b : MessageBuffer) (m : MqttMessage) :
    (assocFind m.topic (b.push m).buffers).getD []
      = (if ((assocFind m.topic b.buffers).getD []).length ≥ b.maxPerTopic
         then ((assocFind m.topic b.buffers).getD []).drop 1
         else (assocFind m.topic b.buffers).getD []) ++ [m] := by
  unfold MessageBuffer.push
  by_cases hc :
      ((assocFind m.topic b.buffers).getD []).length ≥ b.maxPerTopic <;>
    simp [hc, assocFind_upsert_self]

theorem evictAppend_len_le {α : Type} (Q : List α) (m : α) (cap : Nat)
    (hQ : Q.length ≤ cap) (hcap : 1 ≤ cap) :
    ((if Q.length ≥ cap then Q.drop 1 else Q) ++ [m]).length ≤ cap := by
  by_cases hc : Q.length ≥ cap <;>
    simp only [hc, ite_true, ite_false, List.length_append,
      List.length_drop, List.length_singleton, List.length_cons,
      List.length_nil] <;> omega

theorem evictAppend_drop {α : Type} (Q : List α) (m : α) (rest : List α)
    (cap : Nat) (hcap : 1 ≤ cap) (hQ : Q.length ≤ cap) :
    (((if Q.length ≥ cap then Q.drop 1 else Q) ++ [m]) ++ rest).drop
        (((if Q.length ≥ cap then Q.drop 1 else Q) ++ [m]).length
          + rest.length - cap)
      = (Q ++ m :: rest).drop (Q.length + (m :: rest).length - cap) := by
  by_cases hc : Q.length ≥ cap
  · have hQcap : Q.length = cap := le_antisymm hQ hc
    cases Q with
    | nil => simp at hQcap; omega
    | cons c Q' =>
        simp only [hc, ite_true, List.drop_succ_cons, List.drop_zero]
        have hQ' : Q'.length + 1 = cap := by
          simpa using hQcap
        have hi1 : (Q' ++ [m]).length + rest.length - cap = rest.length := by
          simp only [List.length_append, List.length_singleton,
            List.length_cons, List.length_nil]
          omega
        have hi2 : (c :: Q').length + (m :: rest).length - cap
            = rest.length + 1 := by
          simp only [List.length_cons]
          omega
        rw [hi1, hi2]
        simp [List.append_assoc, List.drop_succ_cons]
  · simp only [hc, ite_false]
    have hl : (Q ++ [m]) ++ rest = Q ++ m :: rest := by
      simp [List.append_assoc]
    have hi : (Q ++ [m]).length + rest.length - cap
        = Q.length + (m :: rest).length - cap := by
      simp only [List.length_append, List.length_singleton,
        List.length_cons, List.length_nil]
      omega
    rw [hl, hi]

/-- Pushing a list of messages for topic `t` into a buffer whose queue for
`t` is within a positive capacity keeps, as that queue, the last
`maxPerTopic` entries of old-queue-then-messages. -/
theorem MessageBuffer.pushList_queue (t : Str) (ms : List MqttMessage) :
    ∀ b : MessageBuffer, 1 ≤ b.maxPerTopic →
      (∀ m ∈ ms, m.topic = t) →
      ((assocFind t b.buffers).getD []).length ≤ b.maxPerTopic →
      (assocFind t (ms.foldl MessageBuffer.push b).buffers).getD []
        = (((assocFind t b.buffers).getD []) ++ ms).drop
            (((assocFind t b.buffers).getD []).length + ms.length
              - b.maxPerTopic) := by
  induction ms with
  | nil =>
      intro b hcap hms hq
      simp only [List.foldl_nil, List.append_nil, List.length_nil,
        Nat.add_zero]
      rw [Nat.sub_eq_zero_of_le hq, List.drop_zero]
  | cons m rest ih =>
      intro b hcap hms hq
      have hmt : m.topic = t := hms m (List.mem_cons_self m rest)
      have hpq : (assocFind t (b.push m).buffers).getD []
          = (if ((assocFind t b.buffers).getD []).length ≥ b.maxPerTopic
             then ((assocFind t b.buffers).getD []).drop 1
             else (assocFind t b.buffers).getD []) ++ [m] := by
        have h := b.push_queue_at m
        rw [hmt] at h
        exact h
      have hcap' : (b.push m).maxPerTopic = b.maxPerTopic := rfl
      have hq' : ((assocFind t (b.push m).buffers).getD []).length
          ≤ (b.push m).maxPerTopic := by
        rw [hpq, hcap']
        exact evictAppend_len_le _ _ _ hq hcap
      have hrest := ih (b.push m) (by rw [hcap']; exact hcap)
        (fun x hx => hms x (List.mem_cons_of_mem _ hx)) hq'
      rw [List.foldl_cons, hrest, hpq, hcap']
      exact evictAppend_drop _ _ _ _ hcap hq

/-- C3 counterexample, as the claim is stated: with configured capacity 0
the buffer accepts construction and a single push leaves a queue of length
1, exceeding the capacity (the claim's per-topic bound fails at capacity
0). -/
theorem C3_capacity_zero_violation :
    ((MessageBuffer.new 0).runOps
        [BufferOp.push ⟨"a".data, [], 0, false, 0⟩]).maxPerTopic
      <
    ((MessageBuffer.new 0).runOps
        [BufferOp.push ⟨"a".data, [], 0, false, 0⟩]).countForTopic "a".data
    := by decide

/-- C3 (amended: capacity at least 1): for every sequence of `push`,
`clear`, `clear_topic` operations from a fresh buffer, every per-topic
queue stays within the configured capacity and `total_stored` equals the
sum of the per-topic queue lengths; and pushing `capacity + 1` messages of
one topic into a fresh buffer leaves exactly `capacity` messages, the
oldest evicted (the queue is the original list minus its head). -/
theorem C3_buffer_bounded_and_total :
    (∀ cap : Nat, 1 ≤ cap → ∀ (ops : List BufferOp) (t : Str),
      ((MessageBuffer.new cap).runOps ops).countForTopic t ≤ cap ∧
      ((MessageBuffer.new cap).runOps ops).totalStored
        = bufLenSum ((MessageBuffer.new cap).runOps ops).buffers) ∧
    (∀ cap : Nat, 1 ≤ cap → ∀ (t : Str) (ms : List MqttMessage),
      ms.length = cap + 1 → (∀ m ∈ ms, m.topic = t) →
      ((MessageBuffer.new cap).runOps
          (ms.map BufferOp.push)).countForTopic t = cap ∧
      (assocFind t ((MessageBuffer.new cap).runOps
          (ms.map BufferOp.push)).buffers).getD [] = ms.drop 1) := by
  constructor
  · intro cap hcap ops t
    have hinv : BufferInv (MessageBuffer.new cap) :=
      ⟨hcap, by simp [MessageBuffer.new], by simp [MessageBuffer.new, bufLenSum]⟩
    have hinv' := hinv.runOps ops
    obtain ⟨_, hlen, htot⟩ := hinv'
    refine ⟨?_, htot⟩
    unfold MessageBuffer.countForTopic
    cases hf : assocFind t ((MessageBuffer.new cap).runOps ops).buffers with
    | none => simp
    | some q =>
        have hql := hlen _ (assocFind_mem _ _ _ hf)
        have hmax : ((MessageBuffer.new cap).runOps ops).maxPerTopic = cap := by
          rw [MessageBuffer.runOps_maxPerTopic]
          rfl
        simp only [Option.getD_some]
        simp only at hql
        omega
  · intro cap hcap t ms hlen hms
    have hfold : (MessageBuffer.new cap).runOps (ms.map BufferOp.push)
        = ms.foldl MessageBuffer.push (MessageBuffer.new cap) := by
      unfold MessageBuffer.runOps
      rw [List.foldl_map]
      rfl
    have hq0 : (assocFind t (MessageBuffer.new cap).buffers).getD [] = [] := by
      simp [MessageBuffer.new, assocFind]
    have hQ := MessageBuffer.pushList_queue t ms (MessageBuffer.new cap)
      hcap hms (by rw [hq0]; simp)
    rw [hq0] at hQ
    have hnewcap : (MessageBuffer.new cap).maxPerTopic = cap := rfl
    rw [hnewcap] at hQ
    simp only [List.nil_append, List.length_nil, Nat.zero_add, hlen] at hQ
    have hdrop : cap + 1 - cap = 1 := by omega
    rw [hdrop] at hQ
    rw [hfold]
    refine ⟨?_, hQ⟩
    unfold MessageBuffer.countForTopic
    rw [hQ, List.length_drop, hlen]
    omega

/-- Witness for `C3_buffer_bounded_and_total`: capacity 1, one push, then
two pushes of the same topic. -/
theorem C3_buffer_bounded_and_total_witness :
    (((MessageBuffer.new 1).runOps
        [BufferOp.push ⟨"a".data, [], 0, false, 0⟩]).countForTopic "a".data
        ≤ 1 ∧
      ((MessageBuffer.new 1).runOps
        [BufferOp.push ⟨"a".data, [], 0, false, 0⟩]).totalStored
        = bufLenSum ((MessageBuffer.new 1).runOps
            [BufferOp.push ⟨"a".data, [], 0, false, 0⟩]).buffers) ∧
    (((MessageBuffer.new 1).runOps
        ([⟨"a".data, [1], 0, false, 0⟩, ⟨"a".data, [2], 0, false, 0⟩].map
          BufferOp.push)).countForTopic "a".data = 1 ∧
      (assocFind "a".data ((MessageBuffer.new 1).runOps
        ([⟨"a".data, [1], 0, false, 0⟩, ⟨"a".data, [2], 0, false, 0⟩].map
          BufferOp.push)).buffers).getD []
        = [⟨"a".data, [1], 0, false, 0⟩,
           (⟨"a".data, [2], 0, false, 0⟩ : MqttMessage)].drop 1) := by
  constructor
  · exact C3_buffer_bounded_and_total.1 1 (by decide)
      [BufferOp.push ⟨"a".data, [], 0, false, 0⟩] "a".data
  · exact C3_buffer_bounded_and_total.2 1 (by decide) "a".data
      [⟨"a".data, [1], 0, false, 0⟩, ⟨"a".data, [2], 0, false, 0⟩]
      (by decide) (by decide)


/-! ## JSON values

`serde_json::Value`, with numbers as exact rationals.  A `serde_json::Map`
is a key-ordered map with unique keys; it is modelled as an association
list. -/

inductive Json where
  | null
  | bool (b : Bool)
  | num (q : ℚ)
  | str (s : Str)
  | arr (elems : List Json)
  | obj (fields : List (Str × Json))

/-- `Value::get(key)`: field lookup on objects, `None` on anything else
(string keys never index arrays). -/
def Json.getField (j : Json) (key : Str) : Option Json :=
  match j with
  | .obj fields => assocFind key fields
  | _ => none

/-- One decimal digit. -/
def digitVal (c : Char) : Option Nat :=
  if '0' ≤ c ∧ c ≤ '9' then some (c.toNat - '0'.toNat) else none

/-- A nonempty all-digit string as a number. -/
def parseDigits : Str → Option Nat
  | [] => none
  | cs =>
      cs.foldl
        (fun acc c => acc.bind fun n => (digitVal c).map fun d => n * 10 + d)
        (some 0)

/-- Rust `str::parse::<f64>()`, modelled exactly on plain decimal literals
(optional sign, digits, optional fractional part).  Exponent forms,
`inf`/`NaN`, and binary-rounding effects are outside every claim's scope
and are not modelled (such strings parse to `none` here). -/
def parseF64 (s : Str) : Option ℚ :=
  let sb : ℚ × Str :=
    match s with
    | '-' :: rest => (-1, rest)
    | '+' :: rest => (1, rest)
    | _ => (1, s)
  let intPart := sb.2.takeWhile (fun c => c ≠ '.')
  let rest := sb.2.dropWhile (fun c => c ≠ '.')
  match rest with
  | [] => (parseDigits intPart).map fun n => sb.1 * n
  | _ :: frac =>
      match parseDigits intPart, parseDigits frac with
      | some n, some f =>
          some (sb.1 * ((n : ℚ) + (f : ℚ) / 10 ^ frac.length))
      | _, _ => none

/-- `str::split('.')`, used for JSON field paths (same recursion as
`splitSlash`). -/
def splitDot : Str → List Str
  | [] => [[]]
  | c :: rest =>
      if c = '.' then [] :: splitDot rest
      else
        match splitDot rest with
        | s :: ss => (c :: s) :: ss
        | [] => [[c]]

/-- The `for part in parts { current = current.get(part)? }` walk of
`extract_numeric`. -/
def Json.walkPath : Json → List Str → Option Json
  | j, [] => some j
  | j, p :: rest =>
      match j.getField p with
      | some c => c.walkPath rest
      | none => none

/-- `extract_numeric` from `src/state/metric_tracker.rs`: walk the
dot-separated field path, then accept a JSON number or a string parsing as
a number. -/
def extractNumeric (json : Json) (path : Str) : Option ℚ :=
  match json.walkPath (splitDot path) with
  | some (.num n) => some n
  | some (.str s) => parseF64 s
  | _ => none

/-! ## C4 / C6 / C8 — the numeric metric tracker (`MetricTracker`)

Source: `src/state/metric_tracker.rs`.  Metric values are `f64`, modelled
as `ℚ`; the initial running min/max are the finite sentinels `f64::MAX` /
`f64::MIN`, modelled by their exact rational values. -/

/-- The exact value of `f64::MAX`. -/
def f64MAX : ℚ := 2 ^ 1024 - 2 ^ 971

/-- The exact value of `f64::MIN` (the most negative finite `f64`). -/
def f64MIN : ℚ := -(2 ^ 1024 - 2 ^ 971)

structure TrackedMetric where
  label : Str
  topicPattern : Str
  fieldPath : Str
  /-- `data : VecDeque<(Instant, f64)>`; instants are model inputs. -/
  data : List (ℚ × ℚ)
  min : ℚ
  max : ℚ
  sum : ℚ
  count : Nat
deriving DecidableEq

/-- `TrackedMetric::new`. -/
def TrackedMetric.new (label topicPattern fieldPath : Str) : TrackedMetric :=
  ⟨label, topicPattern, fieldPath, [], f64MAX, f64MIN, 0, 0⟩

/-- `TrackedMetric::record`: push the point, pop from the front while over
`max_points`, update the running stats. -/
def TrackedMetric.record (m : TrackedMetric) (now value : ℚ)
    (maxPoints : Nat) : TrackedMetric :=
  let d := m.data ++ [(now, value)]
  { m with
    data := d.drop (d.length - maxPoints)
    min := Min.min m.min value
    max := Max.max m.max value
    sum := m.sum + value
    count := m.count + 1 }

/-- Record a whole list of `(instant, value)` points. -/
def TrackedMetric.recordAll (m : TrackedMetric) (vs : List (ℚ × ℚ))
    (maxPoints : Nat) : TrackedMetric :=
  vs.foldl (fun acc p => acc.record p.1 p.2 maxPoints) m

/-- `Iterator::step_by(step)`: the first element, then every `step`-th. -/
def stepPick {α : Type} (step : Nat) : List α → List α
  | [] => []
  | x :: xs => x :: stepPick step (xs.drop (step - 1))
termination_by l => l.length
decreasing_by simp [List.length_drop]; omega

/-- `TrackedMetric::sparkline_data`: normalized samples in `[0,1]` by
min–max scaling, even subsampling (`step_by`) when the series is longer
than `width`; all-zero (of length `min(width, len).max(1)`) when the
series is empty or `max <= min`. -/
def TrackedMetric.sparklineData (m : TrackedMetric) (width : Nat) :
    List ℚ :=
  if m.data = [] ∨ m.max ≤ m.min then
    List.replicate (Max.max (Min.min width m.data.length) 1) 0
  else
    let range := m.max - m.min
    let step := if m.data.length ≤ width then 1 else m.data.length / width
    ((stepPick (Max.max step 1) m.data).take width).map
      (fun p => (p.2 - m.min) / range)

structure MetricTracker where
  metrics : List (Str × TrackedMetric)
  maxPoints : Nat
deriving DecidableEq

/-- `MetricTracker::new`. -/
def MetricTracker.new (maxPoints : Nat) : MetricTracker := ⟨[], maxPoints⟩

/-- `MetricTracker::track`. -/
def MetricTracker.track (tr : MetricTracker) (label topicPattern fieldPath : Str) :
    MetricTracker :=
  { tr with
    metrics := assocUpsert label (TrackedMetric.new label topicPattern fieldPath)
      tr.metrics }

/-- `MetricTracker::process_message`: a payload that fails JSON parsing
(`payload = none`) returns immediately; otherwise every metric whose
pattern matches the topic and whose field path yields a number records
that value. -/
def MetricTracker.processMessage (tr : MetricTracker) (topic : Str)
    (payload : Option Json) (now : ℚ) : MetricTracker :=
  match payload with
  | none => tr
  | some json =>
      { tr with
        metrics := tr.metrics.map fun e =>
          if topicMatches e.2.topicPattern topic then
            match extractNumeric json e.2.fieldPath with
            | some v => (e.1, e.2.record now v tr.maxPoints)
            | none => e
          else e }


theorem stepPick_one {α : Type} (l : List α) : stepPick 1 l = l := by
  induction l with
  | nil => simp [stepPick]
  | cons x xs ih => simp [stepPick, ih]

theorem stepPick_length_mul {α : Type} (step : Nat) (hstep : 1 ≤ step) :
    ∀ l : List α, l.length ≤ (stepPick step l).length * step
  | [] => by simp [stepPick]
  | x :: xs => by
      have ih := stepPick_length_mul step hstep (xs.drop (step - 1))
      simp only [stepPick, List.length_cons, List.length_drop] at ih ⊢
      rw [Nat.add_mul, Nat.one_mul]
      omega
termination_by l => l.length
decreasing_by simp [List.length_drop]; omega

theorem stepPick_mem {α : Type} (step : Nat) :
    ∀ (l : List α) (y : α), y ∈ stepPick step l → y ∈ l
  | [], y, hy => by simp [stepPick] at hy
  | x :: xs, y, hy => by
      simp only [stepPick, List.mem_cons] at hy
      rcases hy with hy | hy
      · simp [hy]
      · exact List.mem_cons_of_mem _
          (List.mem_of_mem_drop (stepPick_mem step _ y hy))
termination_by l => l.length
decreasing_by simp [List.length_drop]; omega

theorem TrackedMetric.record_data_length (m : TrackedMetric)
    (now value : ℚ) (maxPoints : Nat) :
    ((m.record now value maxPoints).data).length
      = m.data.length + 1 - (m.data.length + 1 - maxPoints) := by
  unfold TrackedMetric.record
  simp only [List.length_drop, List.length_append, List.length_singleton,
    List.length_cons, List.length_nil]

theorem TrackedMetric.recordAll_data_length (vs : List (ℚ × ℚ)) :
    ∀ (m : TrackedMetric) (maxPoints : Nat),
      m.data.length ≤ maxPoints →
      ((m.recordAll vs maxPoints).data).length
        = m.data.length + vs.length
          - (m.data.length + vs.length - maxPoints) := by
  induction vs with
  | nil =>
      intro m mp h
      simp only [TrackedMetric.recordAll, List.foldl_nil, List.length_nil,
        Nat.add_zero]
      omega
  | cons p rest ih =>
      intro m mp h
      have hrec := m.record_data_length p.1 p.2 mp
      have hle : ((m.record p.1 p.2 mp).data).length ≤ mp := by omega
      have := ih (m.record p.1 p.2 mp) mp hle
      simp only [TrackedMetric.recordAll, List.foldl_cons] at this ⊢
      rw [this, hrec]
      simp only [List.length_cons]
      omega

/-- The data points of a tracked metric always lie between its running
minimum and maximum. -/
def MetricDataInv (m : TrackedMetric) : Prop :=
  ∀ p ∈ m.data, m.min ≤ p.2 ∧ p.2 ≤ m.max

theorem MetricDataInv.record {m : TrackedMetric} (h : MetricDataInv m)
    (now value : ℚ) (maxPoints : Nat) :
    MetricDataInv (m.record now value maxPoints) := by
  intro p hp
  unfold TrackedMetric.record at hp
  simp only at hp
  have hp' : p ∈ m.data ++ [(now, value)] := List.mem_of_mem_drop hp
  simp only [TrackedMetric.record]
  rcases List.mem_append.mp hp' with hp' | hp'
  · obtain ⟨h1, h2⟩ := h p hp'
    exact ⟨le_trans (min_le_left _ _) h1, le_trans h2 (le_max_left _ _)⟩
  · simp only [List.mem_singleton] at hp'
    subst hp'
    exact ⟨min_le_right _ _, le_max_right _ _⟩

theorem MetricDataInv.recordAll (vs : List (ℚ × ℚ)) :
    ∀ (m : TrackedMetric) (maxPoints : Nat), MetricDataInv m →
      MetricDataInv (m.recordAll vs maxPoints) := by
  induction vs with
  | nil => intro m mp h; exact h
  | cons p rest ih =>
      intro m mp h
      exact ih _ mp (h.record p.1 p.2 mp)

theorem MetricDataInv.new (label pat path : Str) :
    MetricDataInv (TrackedMetric.new label pat path) := by
  intro p hp
  simp [TrackedMetric.new] at hp

theorem TrackedMetric.sparklineData_length (m : TrackedMetric)
    (width : Nat) (hw : 1 ≤ width) (hne : m.data ≠ []) :
    (m.sparklineData width).length = Min.min width m.data.length := by
  have hpos : 1 ≤ m.data.length := List.length_pos.mpr hne
  unfold TrackedMetric.sparklineData
  by_cases hdeg : m.data = [] ∨ m.max ≤ m.min
  · rw [if_pos hdeg]
    simp only [List.length_replicate]
    rcases Nat.le_total width m.data.length with hwl | hwl
    · rw [min_eq_left hwl, max_eq_left (by omega)]
    · rw [min_eq_right hwl, max_eq_left (by omega)]
  · rw [if_neg hdeg]
    simp only [List.length_map, List.length_take]
    by_cases hlen : m.data.length ≤ width
    · rw [if_pos hlen]
      simp [stepPick_one]
    · rw [if_neg hlen]
      have hstep1 : 1 ≤ m.data.length / width :=
        (Nat.one_le_div_iff (by omega)).mpr (by omega)
      rw [max_eq_left hstep1]
      set step := m.data.length / width with hstep
      have hmul := stepPick_length_mul step hstep1 m.data
      have hws : width * step ≤ m.data.length := by
        rw [hstep, Nat.mul_comm]
        exact Nat.div_mul_le_self _ _
      have hS : width ≤ (stepPick step m.data).length :=
        Nat.le_of_mul_le_mul_right (le_trans hws hmul) (by omega)
      rw [min_eq_left hS,
        min_eq_left (by omega : width ≤ m.data.length)]

theorem TrackedMetric.sparklineData_bounds (m : TrackedMetric)
    (width : Nat) (hinv : MetricDataInv m) :
    ∀ q ∈ m.sparklineData width, 0 ≤ q ∧ q ≤ 1 := by
  intro q hq
  unfold TrackedMetric.sparklineData at hq
  by_cases hdeg : m.data = [] ∨ m.max ≤ m.min
  · rw [if_pos hdeg] at hq
    have := List.eq_of_mem_replicate hq
    subst this
    norm_num
  · rw [if_neg hdeg] at hq
    push_neg at hdeg
    have hlt : m.min < m.max := hdeg.2
    have hrange : (0 : ℚ) < m.max - m.min := by linarith
    simp only [List.mem_map] at hq
    obtain ⟨p, hp, rfl⟩ := hq
    have hpdata : p ∈ m.data :=
      stepPick_mem _ _ _ (List.mem_of_mem_take hp)
    obtain ⟨h1, h2⟩ := hinv p hpdata
    constructor
    · apply div_nonneg _ (le_of_lt hrange)
      linarith
    · rw [div_le_one hrange]
      linarith

theorem TrackedMetric.sparklineData_flat (m : TrackedMetric) (width : Nat)
    (hflat : m.max ≤ m.min) : ∀ q ∈ m.sparklineData width, q = 0 := by
  intro q hq
  unfold TrackedMetric.sparklineData at hq
  rw [if_pos (Or.inr hflat)] at hq
  exact List.eq_of_mem_replicate hq

/-- C4 (amended): for a tracked metric built from any record sequence,
with a non-empty series and `width ≥ 1`, `sparkline(width)` returns
exactly `min(width, series length)` samples — not always `width`: when the
series is shorter than `width` it returns one sample per point — each in
`[0,1]`, by linear min–max scaling over the running min/max with even
subsampling; when the running max ≤ min, every sample is 0. -/
theorem C4_sparkline_samples (label pat path : Str) (vs : List (ℚ × ℚ))
    (maxPoints width : Nat) (m : TrackedMetric)
    (hm : m = (TrackedMetric.new label pat path).recordAll vs maxPoints)
    (hne : m.data ≠ []) (hw : 1 ≤ width) :
    (m.sparklineData width).length = Min.min width m.data.length ∧
    (∀ q ∈ m.sparklineData width, 0 ≤ q ∧ q ≤ 1) ∧
    (m.max ≤ m.min → ∀ q ∈ m.sparklineData width, q = 0) := by
  have hinv : MetricDataInv m := by
    rw [hm]
    exact MetricDataInv.recordAll vs _ maxPoints
      (MetricDataInv.new label pat path)
  exact ⟨m.sparklineData_length width hw hne,
    m.sparklineData_bounds width hinv,
    fun hflat => m.sparklineData_flat width hflat⟩


/-- Witness for `C4_sparkline_samples`: two recorded points, width 5. -/
theorem C4_sparkline_samples_witness :
    (((TrackedMetric.new [] [] []).recordAll [((0 : ℚ), (0 : ℚ)), (1, 100)]
        100).sparklineData 5).length
      = Min.min 5 ((TrackedMetric.new [] [] []).recordAll
          [((0 : ℚ), (0 : ℚ)), (1, 100)] 100).data.length ∧
    (∀ q ∈ ((TrackedMetric.new [] [] []).recordAll
        [((0 : ℚ), (0 : ℚ)), (1, 100)] 100).sparklineData 5,
      0 ≤ q ∧ q ≤ 1) ∧
    (((TrackedMetric.new [] [] []).recordAll
        [((0 : ℚ), (0 : ℚ)), (1, 100)] 100).max
      ≤ ((TrackedMetric.new [] [] []).recordAll
        [((0 : ℚ), (0 : ℚ)), (1, 100)] 100).min →
      ∀ q ∈ ((TrackedMetric.new [] [] []).recordAll
        [((0 : ℚ), (0 : ℚ)), (1, 100)] 100).sparklineData 5, q = 0) :=
  C4_sparkline_samples [] [] [] [((0 : ℚ), (0 : ℚ)), (1, 100)] 100 5 _
    rfl (by decide) (by decide)

/-- C4 counterexample, as the claim is stated: a metric holding 2 points,
asked for a width-5 sparkline, returns 2 samples, not 5 (the code returns
`min(width, len)` samples, one per point, when the series is shorter than
the width). -/
theorem C4_sparkline_width_counterexample :
    ((((TrackedMetric.new [] [] []).recordAll [((0 : ℚ), (0 : ℚ)), (1, 100)]
        100).sparklineData 5).length = 2) ∧
    ((((TrackedMetric.new [] [] []).recordAll [((0 : ℚ), (0 : ℚ)), (1, 100)]
        100).sparklineData 5).length ≠ 5) := by
  have hm : (TrackedMetric.new [] [] []).recordAll
      [((0 : ℚ), (0 : ℚ)), (1, 100)] 100
      = { label := [], topicPattern := [], fieldPath := [],
          data := [(0, 0), (1, 100)], min := 0, max := 100,
          sum := 100, count := 2 } := by
    unfold TrackedMetric.recordAll TrackedMetric.new TrackedMetric.record
    simp only [List.foldl_cons, List.foldl_nil, TrackedMetric.mk.injEq]
    norm_num [f64MAX, f64MIN, min_def, max_def]
  have hlen2 : (((TrackedMetric.new [] [] []).recordAll
      [((0 : ℚ), (0 : ℚ)), (1, 100)] 100).sparklineData 5).length = 2 := by
    rw [hm]
    simp [TrackedMetric.sparklineData, stepPick_one,
      show ¬(100 : ℚ) ≤ 0 by norm_num]
  exact ⟨hlen2, by rw [hlen2]; decide⟩

/-- C6: the spec requires zero-capacity components to fail at
construction; the code does not validate. `MessageBuffer::new(0)` returns
a buffer, and one push then leaves a queue of length 1, exceeding the
configured capacity 0 (pop-then-push on an empty queue); similarly
`MetricTracker::new(0)` returns a tracker whose `record` keeps the series
empty while still counting the sample (`count = 1`, `data = []`). -/
theorem C6_zero_capacity_constructs :
    MessageBuffer.new 0 = ⟨[], 0, 0⟩ ∧
    ((MessageBuffer.new 0).push
        ⟨"a".data, [], 0, false, 0⟩).countForTopic "a".data = 1 ∧
    MetricTracker.new 0 = ⟨[], 0⟩ ∧
    ((TrackedMetric.new [] [] []).record 0 5 0).data = [] ∧
    ((TrackedMetric.new [] [] []).record 0 5 0).count = 1 := by
  refine ⟨rfl, by decide, rfl, ?_, rfl⟩
  unfold TrackedMetric.record TrackedMetric.new
  simp


/-! ## C7 / C8 — the schema drift detector (`SchemaTracker`)

Source: `src/state/schema_tracker.rs`.  A `Schema` is the flattened map
from field paths to JSON types.  `HashSet` difference/intersection
iteration order is unspecified in Rust; the embedding fixes the key order
of the underlying lists (the claims count and locate changes, which is
order-independent).  The `Instant` timestamp stored on each change is
wall-clock metadata outside every claim and is not modelled. -/

inductive FieldType where
  | null
  | boolean
  | number
  | string
  | array
  | object
deriving DecidableEq

structure Schema where
  fields : List (Str × FieldType)
deriving DecidableEq

inductive ChangeType where
  | fieldAdded
  | fieldRemoved
  | typeChanged
deriving DecidableEq

structure SchemaChange where
  topic : Str
  changeType : ChangeType
  fieldPath : Str
  oldType : Option FieldType
  newType : Option FieldType
deriving DecidableEq

mutual
/-- `Schema::extract_fields`: record this value's type at its path (except
the empty root path) and recurse into the first array element (path
suffix `[0]`) and into object fields (path `prefix.key`). -/
def extractFields (v : Json) (pre : Str)
    (fields : List (Str × FieldType)) : List (Str × FieldType) :=
  match v with
  | .null => if pre = [] then fields else assocUpsert pre FieldType.null fields
  | .bool _ => if pre = [] then fields else assocUpsert pre .boolean fields
  | .num _ => if pre = [] then fields else assocUpsert pre .number fields
  | .str _ => if pre = [] then fields else assocUpsert pre .string fields
  | .arr elems =>
      let f1 := if pre = [] then fields else assocUpsert pre .array fields
      match elems with
      | [] => f1
      | x :: _ =>
          extractFields x
            (if pre = [] then "[0]".data else pre ++ "[0]".data) f1
  | .obj kvs =>
      let f1 := if pre = [] then fields else assocUpsert pre .object fields
      extractFieldsList kvs pre f1

/-- The `for (key, val) in map` loop of `extract_fields` over an object's
entries. -/
def extractFieldsList (kvs : List (Str × Json)) (pre : Str)
    (fields : List (Str × FieldType)) : List (Str × FieldType) :=
  match kvs with
  | [] => fields
  | (k, v) :: rest =>
      extractFieldsList rest pre
        (extractFields v (if pre = [] then k else pre ++ '.' :: k) fields)
end

/-- `Schema::from_json`. -/
def Schema.fromJson (v : Json) : Schema := ⟨extractFields v [] []⟩

structure SchemaTracker where
  schemas : List (Str × Schema)
  changes : List SchemaChange
  maxChanges : Nat
deriving DecidableEq

/-- `SchemaTracker::new` (`max_changes = 50`). -/
def SchemaTracker.new : SchemaTracker := ⟨[], [], 50⟩

/-- `SchemaTracker::compare_schemas`: `FieldAdded` for keys only in the
new schema, `FieldRemoved` for keys only in the old, `TypeChanged` for
common keys whose types differ. -/
def SchemaTracker.compareSchemas (topic : Str) (old newS : Schema) :
    List SchemaChange :=
  let oldKeys := old.fields.map Prod.fst
  let newKeys := newS.fields.map Prod.fst
  let added := (newKeys.filter fun k => decide (k ∉ oldKeys)).map fun k =>
    ⟨topic, .fieldAdded, k, none, assocFind k newS.fields⟩
  let removed := (oldKeys.filter fun k => decide (k ∉ newKeys)).map fun k =>
    ⟨topic, .fieldRemoved, k, assocFind k old.fields, none⟩
  let changed := (oldKeys.filter fun k =>
      decide (k ∈ newKeys ∧ assocFind k old.fields ≠ assocFind k newS.fields)).map
    fun k => ⟨topic, .typeChanged, k, assocFind k old.fields,
      assocFind k newS.fields⟩
  added ++ removed ++ changed

/-- The recording of one change: `remove(0)` when at `max_changes`, then
push. -/
def SchemaTracker.pushChange (changes : List SchemaChange)
    (maxChanges : Nat) (c : SchemaChange) : List SchemaChange :=
  (if changes.length ≥ maxChanges then changes.drop 1 else changes) ++ [c]

/-- `SchemaTracker::process_message`: an unparseable payload
(`payload = none`) returns no changes and leaves the tracker untouched;
the first message on a topic stores the schema silently; later messages
are compared against the stored schema, the detected changes recorded
(bounded by `max_changes`) and returned. -/
def SchemaTracker.processMessage (st : SchemaTracker) (topic : Str)
    (payload : Option Json) : SchemaTracker × List SchemaChange :=
  match payload with
  | none => (st, [])
  | some json =>
      let newSchema := Schema.fromJson json
      match assocFind topic st.schemas with
      | some old =>
          let detected := SchemaTracker.compareSchemas topic old newSchema
          let changes := detected.foldl
            (fun acc c => SchemaTracker.pushChange acc st.maxChanges c)
            st.changes
          ({ st with
              schemas := assocUpsert topic newSchema st.schemas
              changes := changes }, detected)
      | none =>
          ({ st with schemas := assocUpsert topic newSchema st.schemas }, [])


theorem assocFind_eq_none_iff {α β : Type} [DecidableEq α] (k : α)
    (l : List (α × β)) : assocFind k l = none ↔ k ∉ l.map Prod.fst := by
  induction l with
  | nil => simp [assocFind]
  | cons p rest ih =>
      obtain ⟨k₀, v₀⟩ := p
      by_cases h0 : k₀ = k
      · subst h0
        simp [assocFind]
      · simp only [assocFind, h0, ite_false, List.map_cons, List.mem_cons]
        rw [ih]
        constructor
        · intro h hor
          rcases hor with h1 | h1
          · exact h0 h1.symm
          · exact h h1
        · intro h h1
          exact h (Or.inr h1)

theorem mem_keys_of_assocFind_some {α β : Type} [DecidableEq α] (k : α)
    (v : β) (l : List (α × β)) (h : assocFind k l = some v) :
    k ∈ l.map Prod.fst := by
  by_contra hmem
  rw [← assocFind_eq_none_iff] at hmem
  rw [h] at hmem
  exact Option.noConfusion hmem

theorem assocUpsert_keys_mem {α β : Type} [DecidableEq α] (k x : α)
    (v : β) (l : List (α × β)) :
    x ∈ (assocUpsert k v l).map Prod.fst ↔ x = k ∨ x ∈ l.map Prod.fst := by
  induction l with
  | nil => simp [assocUpsert]
  | cons p rest ih =>
      obtain ⟨k₀, v₀⟩ := p
      by_cases h0 : k₀ = k
      · subst h0
        simp [assocUpsert]
      · simp only [assocUpsert, h0, ite_false, List.map_cons, List.mem_cons,
          ih]
        tauto

theorem assocUpsert_keys_nodup {α β : Type} [DecidableEq α] (k : α) (v : β)
    (l : List (α × β)) (h : (l.map Prod.fst).Nodup) :
    ((assocUpsert k v l).map Prod.fst).Nodup := by
  induction l with
  | nil => simp [assocUpsert]
  | cons p rest ih =>
      obtain ⟨k₀, v₀⟩ := p
      simp only [List.map_cons, List.nodup_cons] at h
      by_cases h0 : k₀ = k
      · subst h0
        simp only [assocUpsert, ite_true, List.map_cons, List.nodup_cons]
        exact h
      · simp only [assocUpsert, h0, ite_false, List.map_cons,
          List.nodup_cons]
        refine ⟨?_, ih h.2⟩
        rw [assocUpsert_keys_mem]
        rintro (hk | hk)
        · exact h0 hk
        · exact h.1 hk

mutual
theorem extractFields_keys_nodup (v : Json) :
    ∀ (pre : Str) (fields : List (Str × FieldType)),
      (fields.map Prod.fst).Nodup →
      ((extractFields v pre fields).map Prod.fst).Nodup :=
  match v with
  | .null => by
      intro pre fields h
      unfold extractFields
      split <;> first | exact h | exact assocUpsert_keys_nodup _ _ _ h
  | .bool b => by
      intro pre fields h
      unfold extractFields
      split <;> first | exact h | exact assocUpsert_keys_nodup _ _ _ h
  | .num q => by
      intro pre fields h
      unfold extractFields
      split <;> first | exact h | exact assocUpsert_keys_nodup _ _ _ h
  | .str s => by
      intro pre fields h
      unfold extractFields
      split <;> first | exact h | exact assocUpsert_keys_nodup _ _ _ h
  | .arr elems => by
      intro pre fields h
      unfold extractFields
      have h1 : (((if pre = [] then fields
          else assocUpsert pre FieldType.array fields)).map Prod.fst).Nodup := by
        split
        · exact h
        · exact assocUpsert_keys_nodup _ _ _ h
      cases elems with
      | nil => simpa using h1
      | cons x rest =>
          simpa using extractFields_keys_nodup x _ _ h1
  | .obj kvs => by
      intro pre fields h
      unfold extractFields
      have h1 : (((if pre = [] then fields
          else assocUpsert pre FieldType.object fields)).map Prod.fst).Nodup := by
        split
        · exact h
        · exact assocUpsert_keys_nodup _ _ _ h
      simpa using extractFieldsList_keys_nodup kvs _ _ h1

theorem extractFieldsList_keys_nodup (kvs : List (Str × Json)) :
    ∀ (pre : Str) (fields : List (Str × FieldType)),
      (fields.map Prod.fst).Nodup →
      ((extractFieldsList kvs pre fields).map Prod.fst).Nodup :=
  match kvs with
  | [] => by
      intro pre fields h
      unfold extractFieldsList
      exact h
  | (k, v) :: rest => by
      intro pre fields h
      unfold extractFieldsList
      exact extractFieldsList_keys_nodup rest _ _
        (extractFields_keys_nodup v _ _ h)
end

theorem fromJson_keys_nodup (v : Json) :
    (((Schema.fromJson v).fields).map Prod.fst).Nodup :=
  extractFields_keys_nodup v [] [] (by simp)

theorem filter_eq_singleton_of {α : Type} (l : List α) (a : α)
    (p : α → Bool) (hn : l.Nodup) (ha : a ∈ l)
    (h : ∀ x ∈ l, p x = true ↔ x = a) : l.filter p = [a] := by
  induction l with
  | nil => simp at ha
  | cons x xs ih =>
      simp only [List.nodup_cons] at hn
      rcases List.mem_cons.mp ha with hax | hax
      · subst hax
        have hpx : p a = true := (h a (by simp)).mpr rfl
        rw [List.filter_cons_of_pos hpx]
        have hrest : xs.filter p = [] := by
          rw [List.filter_eq_nil]
          intro y hy hpy
          have := (h y (List.mem_cons_of_mem _ hy)).mp hpy
          subst this
          exact hn.1 hy
        rw [hrest]
      · have hpx : ¬ p x = true := by
          intro hpx
          have := (h x (by simp)).mp hpx
          subst this
          exact hn.1 hax
        rw [List.filter_cons_of_neg hpx]
        exact ih hn.2 hax fun y hy => h y (List.mem_cons_of_mem _ hy)


theorem SchemaTracker.processMessage_first (st : SchemaTracker)
    (topic : Str) (j : Json) (h : assocFind topic st.schemas = none) :
    (st.processMessage topic (some j)).2 = [] := by
  unfold SchemaTracker.processMessage
  rw [h]

theorem SchemaTracker.processMessage_second (st : SchemaTracker)
    (topic : Str) (j1 j2 : Json) (h : assocFind topic st.schemas = none) :
    (((st.processMessage topic (some j1)).1).processMessage topic
      (some j2)).2
      = SchemaTracker.compareSchemas topic (Schema.fromJson j1)
          (Schema.fromJson j2) := by
  unfold SchemaTracker.processMessage
  rw [h]
  simp only
  rw [assocFind_upsert_self]

theorem compareSchemas_added_single (topic : Str) (old newS : Schema)
    (path : Str) (t : FieldType)
    (hnodup : (newS.fields.map Prod.fst).Nodup)
    (hagree : ∀ k, k ≠ path →
      assocFind k old.fields = assocFind k newS.fields)
    (hold : assocFind path old.fields = none)
    (hnew : assocFind path newS.fields = some t) :
    SchemaTracker.compareSchemas topic old newS
      = [⟨topic, .fieldAdded, path, none, some t⟩] := by
  have hpathnew : path ∈ newS.fields.map Prod.fst :=
    mem_keys_of_assocFind_some _ _ _ hnew
  have hpathold : path ∉ old.fields.map Prod.fst :=
    (assocFind_eq_none_iff _ _).mp hold
  simp only [SchemaTracker.compareSchemas]
  have hadded : (newS.fields.map Prod.fst).filter
      (fun k => decide (k ∉ old.fields.map Prod.fst)) = [path] := by
    apply filter_eq_singleton_of _ _ _ hnodup hpathnew
    intro x hx
    simp only [decide_eq_true_eq]
    constructor
    · intro hxnot
      by_contra hne
      have hfind : assocFind x newS.fields ≠ none :=
        fun hc => ((assocFind_eq_none_iff _ _).mp hc) hx
      have : assocFind x old.fields = none :=
        (assocFind_eq_none_iff _ _).mpr hxnot
      rw [hagree x hne] at this
      exact hfind this
    · rintro rfl
      exact hpathold
  have hremoved : (old.fields.map Prod.fst).filter
      (fun k => decide (k ∉ newS.fields.map Prod.fst)) = [] := by
    rw [List.filter_eq_nil]
    intro x hxold
    simp only [decide_eq_true_eq, not_not]
    have hne : x ≠ path := fun h => hpathold (h ▸ hxold)
    by_contra hmem
    have : assocFind x newS.fields = none :=
      (assocFind_eq_none_iff _ _).mpr hmem
    rw [← hagree x hne] at this
    exact ((assocFind_eq_none_iff _ _).mp this) hxold
  have hchanged : (old.fields.map Prod.fst).filter
      (fun k => decide (k ∈ newS.fields.map Prod.fst ∧
        assocFind k old.fields ≠ assocFind k newS.fields)) = [] := by
    rw [List.filter_eq_nil]
    intro x hxold
    simp only [decide_eq_true_eq, not_and, not_not]
    intro _
    have hne : x ≠ path := fun h => hpathold (h ▸ hxold)
    exact hagree x hne
  rw [hadded, hremoved, hchanged]
  simp [hnew]

theorem compareSchemas_typeChanged_single (topic : Str) (old newS : Schema)
    (path : Str) (t1 t2 : FieldType)
    (hnodup : (old.fields.map Prod.fst).Nodup)
    (hagree : ∀ k, k ≠ path →
      assocFind k old.fields = assocFind k newS.fields)
    (h1 : assocFind path old.fields = some t1)
    (h2 : assocFind path newS.fields = some t2)
    (hne : t1 ≠ t2) :
    SchemaTracker.compareSchemas topic old newS
      = [⟨topic, .typeChanged, path, some t1, some t2⟩] := by
  have hpathold : path ∈ old.fields.map Prod.fst :=
    mem_keys_of_assocFind_some _ _ _ h1
  have hpathnew : path ∈ newS.fields.map Prod.fst :=
    mem_keys_of_assocFind_some _ _ _ h2
  simp only [SchemaTracker.compareSchemas]
  have hadded : (newS.fields.map Prod.fst).filter
      (fun k => decide (k ∉ old.fields.map Prod.fst)) = [] := by
    rw [List.filter_eq_nil]
    intro x hxnew
    simp only [decide_eq_true_eq, not_not]
    by_cases hxp : x = path
    · subst hxp
      exact hpathold
    · have hfind : assocFind x newS.fields ≠ none :=
        fun hc => ((assocFind_eq_none_iff _ _).mp hc) hxnew
      by_contra hmem
      have : assocFind x old.fields = none :=
        (assocFind_eq_none_iff _ _).mpr hmem
      rw [hagree x hxp] at this
      exact hfind this
  have hremoved : (old.fields.map Prod.fst).filter
      (fun k => decide (k ∉ newS.fields.map Prod.fst)) = [] := by
    rw [List.filter_eq_nil]
    intro x hxold
    simp only [decide_eq_true_eq, not_not]
    by_cases hxp : x = path
    · subst hxp
      exact hpathnew
    · have hfind : assocFind x old.fields ≠ none :=
        fun hc => ((assocFind_eq_none_iff _ _).mp hc) hxold
      by_contra hmem
      have : assocFind x newS.fields = none :=
        (assocFind_eq_none_iff _ _).mpr hmem
      rw [← hagree x hxp] at this
      exact hfind this
  have hchanged : (old.fields.map Prod.fst).filter
      (fun k => decide (k ∈ newS.fields.map Prod.fst ∧
        assocFind k old.fields ≠ assocFind k newS.fields)) = [path] := by
    apply filter_eq_singleton_of _ _ _ hnodup hpathold
    intro x hx
    simp only [decide_eq_true_eq]
    constructor
    · rintro ⟨_, hdiff⟩
      by_contra hxp
      exact hdiff (hagree x hxp)
    · rintro rfl
      refine ⟨hpathnew, ?_⟩
      rw [h1, h2]
      intro hc
      exact hne (Option.some.injEq _ _ ▸ hc)
  rw [hadded, hremoved, hchanged]
  simp [h1, h2]

theorem compareSchemas_removed_mem (topic : Str) (old newS : Schema)
    (path : Str) (t : FieldType)
    (h1 : assocFind path old.fields = some t)
    (h2 : assocFind path newS.fields = none) :
    (⟨topic, .fieldRemoved, path, some t, none⟩ : SchemaChange)
      ∈ SchemaTracker.compareSchemas topic old newS := by
  simp only [SchemaTracker.compareSchemas, List.mem_append]
  refine Or.inl (Or.inr ?_)
  apply List.mem_map.mpr
  refine ⟨path, ?_, ?_⟩
  · apply List.mem_filter.mpr
    refine ⟨mem_keys_of_assocFind_some _ _ _ h1, ?_⟩
    simp only [decide_eq_true_eq]
    exact (assocFind_eq_none_iff _ _).mp h2
  · rw [h1]


/-- C7: for a topic not yet tracked, the first (parseable) message
produces zero changes; a second message whose flattened map adds exactly
one field path produces exactly one `FieldAdded` change for that path; a
second message changing exactly one field's JSON type produces exactly one
`TypeChanged` change with the correct old and new types; and a field
present in the old map but absent in the new one produces a `FieldRemoved`
change. -/
theorem C7_schema_drift_detection :
    (∀ (st : SchemaTracker) (topic : Str) (j : Json),
      assocFind topic st.schemas = none →
      (st.processMessage topic (some j)).2 = []) ∧
    (∀ (st : SchemaTracker) (topic : Str) (j1 j2 : Json) (path : Str)
      (t : FieldType),
      assocFind topic st.schemas = none →
      (∀ k, k ≠ path → assocFind k (Schema.fromJson j1).fields
        = assocFind k (Schema.fromJson j2).fields) →
      assocFind path (Schema.fromJson j1).fields = none →
      assocFind path (Schema.fromJson j2).fields = some t →
      (((st.processMessage topic (some j1)).1).processMessage topic
        (some j2)).2
        = [⟨topic, .fieldAdded, path, none, some t⟩]) ∧
    (∀ (st : SchemaTracker) (topic : Str) (j1 j2 : Json) (path : Str)
      (t1 t2 : FieldType),
      assocFind topic st.schemas = none →
      (∀ k, k ≠ path → assocFind k (Schema.fromJson j1).fields
        = assocFind k (Schema.fromJson j2).fields) →
      assocFind path (Schema.fromJson j1).fields = some t1 →
      assocFind path (Schema.fromJson j2).fields = some t2 →
      t1 ≠ t2 →
      (((st.processMessage topic (some j1)).1).processMessage topic
        (some j2)).2
        = [⟨topic, .typeChanged, path, some t1, some t2⟩]) ∧
    (∀ (st : SchemaTracker) (topic : Str) (j1 j2 : Json) (path : Str)
      (t : FieldType),
      assocFind topic st.schemas = none →
      assocFind path (Schema.fromJson j1).fields = some t →
      assocFind path (Schema.fromJson j2).fields = none →
      (⟨topic, .fieldRemoved, path, some t, none⟩ : SchemaChange)
        ∈ (((st.processMessage topic (some j1)).1).processMessage topic
            (some j2)).2) := by
  refine ⟨?_, ?_, ?_, ?_⟩
  · intro st topic j h
    exact st.processMessage_first topic j h
  · intro st topic j1 j2 path t h hagree hold hnew
    rw [st.processMessage_second topic j1 j2 h]
    exact compareSchemas_added_single topic _ _ path t
      (fromJson_keys_nodup j2) hagree hold hnew
  · intro st topic j1 j2 path t1 t2 h hagree h1 h2 hne
    rw [st.processMessage_second topic j1 j2 h]
    exact compareSchemas_typeChanged_single topic _ _ path t1 t2
      (fromJson_keys_nodup j1) hagree h1 h2 hne
  · intro st topic j1 j2 path t h h1 h2
    rw [st.processMessage_second topic j1 j2 h]
    exact compareSchemas_removed_mem topic _ _ path t h1 h2

/-- Witness for `C7_schema_drift_detection`: concrete JSON objects
`{"a": 1}`, `{"a": 2, "b": "x"}` (field added / removed) and
`{"v": 42}`, `{"v": "x"}` (type changed). -/
theorem C7_schema_drift_detection_witness :
    ((SchemaTracker.new.processMessage "t".data
      (some (.obj [("a".data, .num 1)]))).2 = []) ∧
    (((SchemaTracker.new.processMessage "t".data
        (some (.obj [("a".data, .num 1)]))).1.processMessage "t".data
        (some (.obj [("a".data, .num 2), ("b".data, .str "x".data)]))).2
      = [⟨"t".data, .fieldAdded, "b".data, none, some .string⟩]) ∧
    (((SchemaTracker.new.processMessage "t".data
        (some (.obj [("v".data, .num 42)]))).1.processMessage "t".data
        (some (.obj [("v".data, .str "x".data)]))).2
      = [⟨"t".data, .typeChanged, "v".data, some .number, some .string⟩]) ∧
    ((⟨"t".data, .fieldRemoved, "b".data, some .string, none⟩ : SchemaChange)
      ∈ ((SchemaTracker.new.processMessage "t".data
        (some (.obj [("a".data, .num 2), ("b".data, .str "x".data)]))).1.processMessage
          "t".data (some (.obj [("a".data, .num 1)]))).2) := by
  refine ⟨?_, ?_, ?_, ?_⟩
  · exact C7_schema_drift_detection.1 SchemaTracker.new "t".data _ rfl
  · apply C7_schema_drift_detection.2.1 SchemaTracker.new "t".data _ _
      "b".data FieldType.string rfl
    · intro k hk
      by_cases h : "a".data = k <;>
        simp [Schema.fromJson, extractFields, extractFieldsList,
          assocUpsert, assocFind, h, Ne.symm hk]
    · decide
    · decide
  · apply C7_schema_drift_detection.2.2.1 SchemaTracker.new "t".data _ _
      "v".data FieldType.number FieldType.string rfl
    · intro k hk
      by_cases h : "v".data = k <;>
        simp [Schema.fromJson, extractFields, extractFieldsList,
          assocUpsert, assocFind, h, Ne.symm hk]
    · decide
    · decide
    · decide
  · exact C7_schema_drift_detection.2.2.2 SchemaTracker.new "t".data _ _
      "b".data FieldType.string rfl (by decide) (by decide)

/-- C8: a payload that does not parse as JSON is a silent no-op: the
schema tracker returns zero changes and its stored schemas and change
history are untouched, and the metric tracker leaves every tracked series
and its running stats untouched. -/
theorem C8_malformed_payload_noop :
    (∀ (st : SchemaTracker) (topic : Str),
      st.processMessage topic none = (st, [])) ∧
    (∀ (tr : MetricTracker) (topic : Str) (now : ℚ),
      tr.processMessage topic none now = tr) := by
  constructor
  · intro st topic
    rfl
  · intro tr topic now
    rfl


/-! ## C5 — the latency/jitter estimator (`LatencyTracker`)

Source: `src/state/latency_tracker.rs`.  Instants and durations are
nanosecond counts; `Instant::duration_since` saturates at zero, matching
`Nat` subtraction.  The payload-latency half of `record_message` (driven
by wall-clock timestamps inside payloads) touches only the
`payload_latencies` fields, which `jitter()` never reads; it is outside
every claim and not modelled.  `jitter()` itself is modelled up to its
final monotone `sqrt`/`Duration::from_secs_f64` step: `jitterVar` returns
the variance (in seconds²) whose square root the code wraps in a
`Duration`. -/

/-- `Duration::MAX` in nanoseconds (`u64::MAX` seconds + 999 999 999 ns),
the initial value of `min_inter_arrival`. -/
def DurationMAXNs : Nat := (2 ^ 64 - 1) * 1000000000 + 999999999

structure LatencyTracker where
  /-- `inter_arrival_times : VecDeque<Duration>`, in nanoseconds. -/
  interArrivalTimes : List Nat
  /-- `last_message_time : Option<Instant>`, in nanoseconds. -/
  lastMessageTime : Option Nat
  maxSamples : Nat
  minInterArrival : Nat
  maxInterArrival : Nat
  totalInterArrival : Nat
  interArrivalCount : Nat
deriving DecidableEq

/-- `LatencyTracker::new`. -/
def LatencyTracker.new (maxSamples : Nat) : LatencyTracker :=
  ⟨[], none, maxSamples, DurationMAXNs, 0, 0, 0⟩

/-- The inter-arrival half of `LatencyTracker::record_message`, at arrival
instant `now`: on the first message only `last_message_time` is set;
afterwards the saturating difference from the previous arrival updates the
running stats and is pushed into the bounded sample buffer (evicting the
oldest at `max_samples`). -/
def LatencyTracker.recordArrival (tr : LatencyTracker) (now : Nat) :
    LatencyTracker :=
  match tr.lastMessageTime with
  | none => { tr with lastMessageTime := some now }
  | some last =>
      let ia := now - last
      { tr with
        minInterArrival := Min.min tr.minInterArrival ia
        maxInterArrival := Max.max tr.maxInterArrival ia
        totalInterArrival := tr.totalInterArrival + ia
        interArrivalCount := tr.interArrivalCount + 1
        interArrivalTimes :=
          (if tr.interArrivalTimes.length ≥ tr.maxSamples
           then tr.interArrivalTimes.drop 1
           else tr.interArrivalTimes) ++ [ia]
        lastMessageTime := some now }

/-- Record a whole sequence of arrival instants. -/
def LatencyTracker.recordAll (tr : LatencyTracker) (ts : List Nat) :
    LatencyTracker :=
  ts.foldl LatencyTracker.recordArrival tr

/-- `LatencyTracker::avg_inter_arrival`:
`total_inter_arrival / inter_arrival_count as u32` (truncating `Duration`
division; the `as u32` cast wraps). -/
def LatencyTracker.avgInterArrival (tr : LatencyTracker) : Option Nat :=
  if tr.interArrivalCount > 0 then
    some (tr.totalInterArrival / (tr.interArrivalCount % 2 ^ 32))
  else none

/-- One summand of the variance in `jitter()`: the squared absolute
difference, in seconds, between a buffered sample and the average
(`as_secs_f64` is exact division by 10⁹). -/
def secsSqDiff (avg d : Nat) : ℚ :=
  (if avg < d then (d : ℚ) / 10 ^ 9 - (avg : ℚ) / 10 ^ 9
   else (avg : ℚ) / 10 ^ 9 - (d : ℚ) / 10 ^ 9)
  * (if avg < d then (d : ℚ) / 10 ^ 9 - (avg : ℚ) / 10 ^ 9
     else (avg : ℚ) / 10 ^ 9 - (d : ℚ) / 10 ^ 9)

/-- `LatencyTracker::jitter` up to the final square root: `None` when
fewer than 2 buffered samples, else the mean squared deviation of the
buffered samples from `avg_inter_arrival()` — the running average over all
samples ever recorded, not the buffer's own mean. -/
def LatencyTracker.jitterVar (tr : LatencyTracker) : Option ℚ :=
  if tr.interArrivalTimes.length < 2 then none
  else
    match tr.avgInterArrival with
    | none => none
    | some avg =>
        some ((tr.interArrivalTimes.map (secsSqDiff avg)).sum
          / tr.interArrivalTimes.length)

/-- Modelled from the spec's words, for comparison with `jitterVar`: the
population variance (in seconds²) of the buffered samples about the
buffer's own mean — the square of the claimed jitter. -/
def bufferPopulationVar (samples : List Nat) : ℚ :=
  let secs := samples.map fun d => (d : ℚ) / 10 ^ 9
  let mean := secs.sum / (samples.length : ℚ)
  (secs.map fun x => (x - mean) * (x - mean)).sum / (samples.length : ℚ)

/-- The inter-arrival durations of a sequence of arrival instants
(saturating successive differences), the trace-level view of what
`record_message` accumulates. -/
def interArrivalsOf : List Nat → List Nat
  | [] => []
  | [_] => []
  | a :: b :: rest => (b - a) :: interArrivalsOf (b :: rest)

theorem LatencyTracker.recordAll_state (ts : List Nat) :
    ∀ (tr : LatencyTracker) (last : Nat),
      tr.lastMessageTime = some last →
      1 ≤ tr.maxSamples →
      tr.interArrivalTimes.length ≤ tr.maxSamples →
      (tr.recordAll ts).interArrivalTimes
        = (tr.interArrivalTimes ++ interArrivalsOf (last :: ts)).drop
            (tr.interArrivalTimes.length
              + (interArrivalsOf (last :: ts)).length - tr.maxSamples) ∧
      (tr.recordAll ts).totalInterArrival
        = tr.totalInterArrival + (interArrivalsOf (last :: ts)).sum ∧
      (tr.recordAll ts).interArrivalCount
        = tr.interArrivalCount + (interArrivalsOf (last :: ts)).length := by
  induction ts with
  | nil =>
      intro tr last hlast hmax hlen
      refine ⟨?_, by simp [LatencyTracker.recordAll, interArrivalsOf],
        by simp [LatencyTracker.recordAll, interArrivalsOf]⟩
      simp only [LatencyTracker.recordAll, List.foldl_nil, interArrivalsOf,
        List.append_nil, List.length_nil, Nat.add_zero]
      rw [Nat.sub_eq_zero_of_le hlen, List.drop_zero]
  | cons t rest ih =>
      intro tr last hlast hmax hlen
      have hstep : tr.recordArrival t
          = { tr with
              minInterArrival := Min.min tr.minInterArrival (t - last)
              maxInterArrival := Max.max tr.maxInterArrival (t - last)
              totalInterArrival := tr.totalInterArrival + (t - last)
              interArrivalCount := tr.interArrivalCount + 1
              interArrivalTimes :=
                (if tr.interArrivalTimes.length ≥ tr.maxSamples
                 then tr.interArrivalTimes.drop 1
                 else tr.interArrivalTimes) ++ [t - last]
              lastMessageTime := some t } := by
        unfold LatencyTracker.recordArrival
        rw [hlast]
      have hrec := ih (tr.recordArrival t) t
        (by rw [hstep]) (by rw [hstep]; exact hmax)
        (by rw [hstep]; exact evictAppend_len_le _ _ _ hlen hmax)
      obtain ⟨hbuf, htot, hcnt⟩ := hrec
      have hfold : tr.recordAll (t :: rest)
          = (tr.recordArrival t).recordAll rest := rfl
      rw [hfold]
      refine ⟨?_, ?_, ?_⟩
      · rw [hbuf, hstep]
        simp only [interArrivalsOf]
        exact evictAppend_drop tr.interArrivalTimes (t - last)
          (interArrivalsOf (t :: rest)) tr.maxSamples hmax hlen
      · rw [htot, hstep]
        simp only [interArrivalsOf, List.sum_cons]
        ring
      · rw [hcnt, hstep]
        simp only [interArrivalsOf, List.length_cons]
        omega

/-- C5 (amended): with fewer than 2 buffered samples jitter is absent;
otherwise the (squared) jitter is the mean squared deviation of the
buffered samples — the last `max_samples` inter-arrival durations — from
`avg_inter_arrival()`, the truncated mean of ALL inter-arrival durations
ever recorded, not the buffer's own mean (the two coincide only while no
sample has been evicted). -/
theorem C5_jitter_running_average (maxSamples : Nat) (ts : List Nat)
    (ias buf : List Nat) (hmax : 1 ≤ maxSamples)
    (hias : ias = interArrivalsOf ts)
    (hbuf : buf = ias.drop (ias.length - maxSamples)) :
    ((LatencyTracker.new maxSamples).recordAll ts).jitterVar
      = if buf.length < 2 then none
        else some ((buf.map
            (secsSqDiff (ias.sum / (ias.length % 2 ^ 32)))).sum
          / buf.length) := by
  cases ts with
  | nil =>
      subst hias
      simp only [interArrivalsOf] at hbuf
      simp only [List.drop_nil, List.length_nil] at hbuf
      subst hbuf
      simp [LatencyTracker.recordAll, LatencyTracker.jitterVar,
        LatencyTracker.new]
  | cons t rest =>
      set tr0 := (LatencyTracker.new maxSamples).recordArrival t with htr0
      have hstate := LatencyTracker.recordAll_state rest tr0 t rfl hmax
        (Nat.zero_le _)
      obtain ⟨hbuf', htot', hcnt'⟩ := hstate
      have hfold : (LatencyTracker.new maxSamples).recordAll (t :: rest)
          = tr0.recordAll rest := rfl
      have hias' : interArrivalsOf (t :: rest) = ias := by rw [hias]
      have e1 : tr0.interArrivalTimes = [] := rfl
      have e2 : tr0.maxSamples = maxSamples := rfl
      have e3 : tr0.totalInterArrival = 0 := rfl
      have e4 : tr0.interArrivalCount = 0 := rfl
      rw [e1, e2] at hbuf'
      rw [e3] at htot'
      rw [e4] at hcnt'
      simp only [List.nil_append, List.length_nil, Nat.zero_add,
        Nat.add_zero] at hbuf' htot' hcnt'
      rw [hias'] at hbuf' htot' hcnt'
      rw [hfold]
      unfold LatencyTracker.jitterVar LatencyTracker.avgInterArrival
      rw [hbuf', htot', hcnt', ← hbuf]
      by_cases hblen : buf.length < 2
      · rw [if_pos hblen, if_pos hblen]
      · rw [if_neg hblen, if_neg hblen]
        have hcnt2 : 0 < ias.length := by
          have : buf.length ≤ ias.length := by
            rw [hbuf]
            exact (List.length_drop _ _).le.trans (Nat.sub_le _ _)
          omega
        rw [if_pos hcnt2]


/-- Witness for `C5_jitter_running_average`: buffer capacity 2, arrivals
at 0 s, 4 s, 5 s, 6 s. -/
theorem C5_jitter_running_average_witness :
    ((LatencyTracker.new 2).recordAll
        [0, 4000000000, 5000000000, 6000000000]).jitterVar
      = if ([1000000000, 1000000000] : List Nat).length < 2 then none
        else some ((([1000000000, 1000000000] : List Nat).map
            (secsSqDiff
              (([4000000000, 1000000000, 1000000000] : List Nat).sum
                / (([4000000000, 1000000000, 1000000000] :
                    List Nat).length % 2 ^ 32)))).sum
          / (([1000000000, 1000000000] : List Nat).length : ℚ)) :=
  C5_jitter_running_average 2 [0, 4000000000, 5000000000, 6000000000]
    [4000000000, 1000000000, 1000000000] [1000000000, 1000000000]
    (by decide) (by decide) (by decide)

/-- C5 counterexample, as the claim is stated: arrivals at 0 s, 4 s, 5 s,
6 s with buffer capacity 2 leave buffered samples [1 s, 1 s], whose
population standard deviation about their own mean is 0; but the code's
jitter is the deviation from `avg_inter_arrival()` = (4+1+1)/3 = 2 s over
all samples ever, giving variance 1 s² (jitter 1 s ≠ 0 s). -/
theorem C5_jitter_buffer_mean_counterexample :
    ((LatencyTracker.new 2).recordAll
        [0, 4000000000, 5000000000, 6000000000]).jitterVar = some 1 ∧
    bufferPopulationVar ((LatencyTracker.new 2).recordAll
        [0, 4000000000, 5000000000, 6000000000]).interArrivalTimes = 0 := by
  have htr : (LatencyTracker.new 2).recordAll
      [0, 4000000000, 5000000000, 6000000000]
      = ⟨[1000000000, 1000000000], some 6000000000, 2,
         1000000000, 4000000000, 6000000000, 3⟩ := by decide
  rw [htr]
  constructor
  · unfold LatencyTracker.jitterVar LatencyTracker.avgInterArrival
      secsSqDiff
    norm_num
  · unfold bufferPopulationVar
    norm_num


/-! ## C9 — the topic trie (`TopicTree`)

Source: `src/state/topic_tree.rs`.  Children are keyed by topic segment;
`insert` walks the `/`-split segments creating default nodes, then marks
the terminal node as a topic (incrementing the tree-wide unique-topic
counter exactly on the false→true transition) and updates its per-topic
stats.  `last_message_time` (wall-clock milliseconds) is a model input. -/

inductive TopicNode where
  | node (children : List (Str × TopicNode)) (isTopic : Bool)
      (messageCount : Nat) (bytesReceived : Nat)
      (lastMessageTime : Option Int)

/-- `TopicNode::default()`. -/
def TopicNode.empty : TopicNode := .node [] false 0 0 none

/-- The `children` field. -/
def TopicNode.children : TopicNode → List (Str × TopicNode)
  | .node c _ _ _ _ => c

/-- The `is_topic` field. -/
def TopicNode.topicFlag : TopicNode → Bool
  | .node _ it _ _ _ => it

/-- The `message_count` field. -/
def TopicNode.messageCount : TopicNode → Nat
  | .node _ _ mc _ _ => mc

/-- The `insert` walk below one node: descend along the segments through
`children.entry(segment).or_default()`, then update the terminal node;
also returns whether the terminal node transitioned `is_topic`
false→true. -/
def insertSegs (n : TopicNode) (segs : List Str) (sz : Nat) (now : Int) :
    TopicNode × Bool :=
  match segs with
  | [] =>
      match n with
      | .node c it mc br _ =>
          (.node c true (mc + 1) (br + sz) (some now), !it)
  | s :: rest =>
      match n with
      | .node c it mc br lt =>
          let child := (assocFind s c).getD TopicNode.empty
          let r := insertSegs child rest sz now
          (.node (assocUpsert s r.1 c) it mc br lt, r.2)

structure TopicTree where
  root : TopicNode
  totalTopics : Nat

/-- `TopicTree::new`. -/
def TopicTree.new : TopicTree := ⟨TopicNode.empty, 0⟩

/-- `TopicTree::insert`. -/
def TopicTree.insert (tree : TopicTree) (topic : Str) (payloadSize : Nat)
    (now : Int) : TopicTree :=
  let r := insertSegs tree.root (splitSlash topic) payloadSize now
  ⟨r.1, tree.totalTopics + if r.2 then 1 else 0⟩

/-- `TopicTree::topic_count`. -/
def TopicTree.topicCount (tree : TopicTree) : Nat := tree.totalTopics

/-- Whether the node at a segment path is marked as a topic. -/
def isTopicAt (n : TopicNode) : List Str → Bool
  | [] => n.topicFlag
  | s :: rest =>
      match assocFind s n.children with
      | some c => isTopicAt c rest
      | none => false

/-- The `message_count` of the node at a segment path (0 when absent). -/
def mcAt (n : TopicNode) : List Str → Nat
  | [] => n.messageCount
  | s :: rest => mcAt ((assocFind s n.children).getD TopicNode.empty) rest

/-- Run a sequence of `(topic, payload size, now)` inserts. -/
def TopicTree.runInserts (tree : TopicTree)
    (ops : List (Str × Nat × Int)) : TopicTree :=
  ops.foldl (fun t o => t.insert o.1 o.2.1 o.2.2) tree

theorem isTopicAt_empty : ∀ p : List Str, isTopicAt TopicNode.empty p = false
  | [] => rfl
  | _ :: _ => by simp [isTopicAt, TopicNode.empty, TopicNode.children, assocFind]

theorem mcAt_empty : ∀ p : List Str, mcAt TopicNode.empty p = 0
  | [] => rfl
  | s :: rest => by
      simp only [mcAt, TopicNode.empty, TopicNode.children, assocFind,
        Option.getD_none]
      exact mcAt_empty rest

theorem insertSegs_snd (sz : Nat) (now : Int) :
    ∀ (p : List Str) (n : TopicNode),
      (insertSegs n p sz now).2 = !(isTopicAt n p)
  | [], .node c it mc br lt => rfl
  | s :: rest, .node c it mc br lt => by
      simp only [insertSegs, isTopicAt, TopicNode.children]
      cases hf : assocFind s c with
      | none =>
          simp only [Option.getD_none]
          rw [insertSegs_snd sz now rest TopicNode.empty,
            isTopicAt_empty rest]
      | some child =>
          simp only [Option.getD_some]
          exact insertSegs_snd sz now rest child

theorem isTopicAt_insertSegs (sz : Nat) (now : Int) :
    ∀ (p q : List Str) (n : TopicNode),
      isTopicAt (insertSegs n p sz now).1 q
        = if p = q then true else isTopicAt n q
  | [], [], .node c it mc br lt => by
      simp [insertSegs, isTopicAt, TopicNode.topicFlag]
  | [], s' :: qr, .node c it mc br lt => by
      simp [insertSegs, isTopicAt, TopicNode.children]
  | s :: pr, [], .node c it mc br lt => by
      simp [insertSegs, isTopicAt, TopicNode.topicFlag]
  | s :: pr, s' :: qr, .node c it mc br lt => by
      simp only [insertSegs, isTopicAt, TopicNode.children]
      by_cases hs : s = s'
      · subst hs
        simp only [assocFind_upsert_self]
        rw [isTopicAt_insertSegs sz now pr qr
          ((assocFind s c).getD TopicNode.empty)]
        by_cases hpq : pr = qr
        · simp [hpq]
        · have hne : ¬ (s :: pr = s :: qr) := by
            intro h
            exact hpq (List.cons.injEq _ _ _ _ ▸ h).2
          simp only [hpq, ite_false, hne]
          cases hf : assocFind s c with
          | none => simp [isTopicAt_empty qr]
          | some child => simp
      · have hne : ¬ (s :: pr = s' :: qr) := by
          intro h
          exact hs (List.cons.injEq _ _ _ _ ▸ h).1
        rw [assocFind_upsert_ne s s' _ c hs]
        simp [hne]

theorem mcAt_insertSegs (sz : Nat) (now : Int) :
    ∀ (p : List Str) (n : TopicNode),
      mcAt (insertSegs n p sz now).1 p = mcAt n p + 1
  | [], .node c it mc br lt => rfl
  | s :: rest, .node c it mc br lt => by
      simp only [insertSegs, mcAt, TopicNode.children]
      simp only [assocFind_upsert_self, Option.getD_some]
      exact mcAt_insertSegs sz now rest _


theorem toFinset_replicate_card (t : Str) :
    ∀ N : Nat, 1 ≤ N → (List.replicate N t).toFinset.card = 1
  | 0, h => by omega
  | 1, _ => by simp
  | (n + 2), _ => by
      have := toFinset_replicate_card t (n + 1) (by omega)
      simpa [List.replicate_succ, List.toFinset_cons] using this

theorem runInserts_totalTopics (ops : List (Str × Nat × Int)) :
    ∀ (tree : TopicTree) (seen : List Str),
      (∀ s : Str, isTopicAt tree.root (splitSlash s) = decide (s ∈ seen)) →
      tree.totalTopics = seen.toFinset.card →
      (tree.runInserts ops).totalTopics
        = (seen ++ ops.map Prod.fst).toFinset.card := by
  induction ops with
  | nil =>
      intro tree seen hiso hcard
      simpa [TopicTree.runInserts] using hcard
  | cons op rest ih =>
      intro tree seen hiso hcard
      obtain ⟨t, sz, now⟩ := op
      have hfold : tree.runInserts ((t, sz, now) :: rest)
          = (tree.insert t sz now).runInserts rest := rfl
      have hiso' : ∀ s : Str,
          isTopicAt (tree.insert t sz now).root (splitSlash s)
            = decide (s ∈ t :: seen) := by
        intro s
        show isTopicAt (insertSegs tree.root (splitSlash t) sz now).1
          (splitSlash s) = decide (s ∈ t :: seen)
        rw [isTopicAt_insertSegs]
        by_cases hst : s = t
        · subst hst
          simp
        · have hsplit : splitSlash t ≠ splitSlash s :=
            fun h => hst (splitSlash_injective h).symm
          rw [if_neg hsplit, hiso s]
          simp [hst]
      have hcard' : (tree.insert t sz now).totalTopics
          = (t :: seen).toFinset.card := by
        show tree.totalTopics
            + (if (insertSegs tree.root (splitSlash t) sz now).2 then 1
               else 0)
          = (t :: seen).toFinset.card
        rw [insertSegs_snd, hiso t, hcard]
        by_cases hmem : t ∈ seen
        · simp [hmem, List.toFinset_cons,
            Finset.insert_eq_self.mpr (List.mem_toFinset.mpr hmem)]
        · simp only [List.toFinset_cons]
          rw [Finset.card_insert_of_not_mem
            (fun hc => hmem (List.mem_toFinset.mp hc))]
          simp [hmem]
      have := ih (tree.insert t sz now) (t :: seen) hiso' hcard'
      rw [hfold, this]
      congr 1
      ext x
      simp [List.mem_append, List.mem_cons]

theorem runInserts_mcAt (t : Str) (sz : Nat) (now : Int) :
    ∀ (N : Nat) (tree : TopicTree),
      mcAt (tree.runInserts (List.replicate N (t, sz, now))).root
          (splitSlash t)
        = mcAt tree.root (splitSlash t) + N
  | 0, tree => by simp [TopicTree.runInserts]
  | (n + 1), tree => by
      have hfold : tree.runInserts
            (List.replicate (n + 1) (t, sz, now))
          = (tree.insert t sz now).runInserts
              (List.replicate n (t, sz, now)) := rfl
      rw [hfold, runInserts_mcAt t sz now n (tree.insert t sz now)]
      show mcAt (insertSegs tree.root (splitSlash t) sz now).1
          (splitSlash t) + n = _
      rw [mcAt_insertSegs]
      omega

/-- C9: over any sequence of inserts, `topic_count()` is the number of
distinct topic strings inserted (the tree-wide counter is incremented
exactly once per terminal node's `is_topic` false→true transition), and
inserting the same topic N ≥ 1 times leaves `topic_count() = 1` while the
terminal node's `message_count` is N. -/
theorem C9_topic_count_distinct :
    (∀ ops : List (Str × Nat × Int),
      (TopicTree.new.runInserts ops).topicCount
        = (ops.map Prod.fst).toFinset.card) ∧
    (∀ (t : Str) (sz : Nat) (now : Int) (N : Nat), 1 ≤ N →
      (TopicTree.new.runInserts (List.replicate N (t, sz, now))).topicCount
          = 1 ∧
      mcAt (TopicTree.new.runInserts
          (List.replicate N (t, sz, now))).root (splitSlash t) = N) := by
  have hbase : ∀ s : Str,
      isTopicAt TopicTree.new.root (splitSlash s) = decide (s ∈ ([] : List Str)) := by
    intro s
    simp [TopicTree.new, isTopicAt_empty]
  constructor
  · intro ops
    have := runInserts_totalTopics ops TopicTree.new [] hbase (by simp [TopicTree.new])
    simpa [TopicTree.topicCount] using this
  · intro t sz now N hN
    constructor
    · have := runInserts_totalTopics (List.replicate N (t, sz, now))
        TopicTree.new [] hbase (by simp [TopicTree.new])
      rw [TopicTree.topicCount, this]
      simp only [List.nil_append, List.map_replicate]
      exact toFinset_replicate_card t N hN
    · have := runInserts_mcAt t sz now N TopicTree.new
      rw [this]
      simp [TopicTree.new, mcAt_empty]

/-- Witness for `C9_topic_count_distinct`: three inserts over two distinct
topics, and the same topic inserted three times. -/
theorem C9_topic_count_distinct_witness :
    ((TopicTree.new.runInserts
        [("a/b".data, 1, 0), ("a/b".data, 2, 0), ("c".data, 1, 0)]).topicCount
      = ([("a/b".data, (1 : Nat), (0 : Int)), ("a/b".data, 2, 0),
          ("c".data, 1, 0)].map Prod.fst).toFinset.card) ∧
    ((TopicTree.new.runInserts
        (List.replicate 3 ("a/b".data, 5, 7))).topicCount = 1 ∧
      mcAt (TopicTree.new.runInserts
        (List.replicate 3 ("a/b".data, 5, 7))).root
          (splitSlash "a/b".data) = 3) :=
  ⟨C9_topic_count_distinct.1
      [("a/b".data, 1, 0), ("a/b".data, 2, 0), ("c".data, 1, 0)],
    C9_topic_count_distinct.2 "a/b".data 5 7 3 (by decide)⟩


/-! ## C10 — the device health classifier (`DeviceTracker`)

Source: `src/state/device_tracker.rs`.  Instants are rational seconds with
a nonnegative-epoch model: `Instant::checked_sub(window)` fails (and
`unwrap_or(now)` applies) exactly when `now < window`, and `elapsed` of an
instant not later than `now` is their difference (saturating at zero).
All `Instant::now()` calls within one `process_message` invocation denote
the same instant `now`, which is the claim's own reading of
"within that call". -/

inductive HealthStatus where
  | healthy
  | warning
  | stale
  | unknown
deriving DecidableEq

structure DeviceHealth where
  deviceId : Str
  deviceType : Option Str
  messageCount : Nat
  lastSeen : ℚ
  recentMessages : List ℚ
  status : HealthStatus
  lastPayloadSize : Nat
  topics : List Str
deriving DecidableEq

/-- `DeviceHealth::new` (at creation instant `now`). -/
def DeviceHealth.new (deviceId : Str) (now : ℚ) : DeviceHealth :=
  ⟨deviceId, none, 0, now, [], .unknown, 0, []⟩

structure DeviceTracker where
  devices : List (Str × DeviceHealth)
  /-- `rate_window` in seconds (60). -/
  rateWindow : ℚ
  healthyThreshold : ℚ
  warningThreshold : ℚ
deriving DecidableEq

/-- `DeviceTracker::new`. -/
def DeviceTracker.new : DeviceTracker := ⟨[], 60, 1, 1 / 10⟩

/-- `extract_device_id`: `telemetry/{id}/..`, `devices/{id}/..`, or
`sites/{site}/devices/{id}/..`. -/
def extractDeviceId (topic : Str) : Option Str :=
  let parts := splitSlash topic
  if 2 ≤ parts.length ∧ parts.getD 0 [] = "telemetry".data then
    some (parts.getD 1 [])
  else if 2 ≤ parts.length ∧ parts.getD 0 [] = "devices".data then
    some (parts.getD 1 [])
  else if 4 ≤ parts.length ∧ parts.getD 0 [] = "sites".data
      ∧ parts.getD 2 [] = "devices".data then
    some (parts.getD 3 [])
  else none

/-- `extract_device_type`: `telemetry/{id}/{type}/..`. -/
def extractDeviceType (topic : Str) : Option Str :=
  let parts := splitSlash topic
  if 3 ≤ parts.length ∧ parts.getD 0 [] = "telemetry".data then
    some (parts.getD 2 [])
  else none

/-- `DeviceHealth::messages_per_minute` at instant `now`. -/
def DeviceHealth.messagesPerMinute (d : DeviceHealth) (window now : ℚ) :
    ℚ :=
  let cutoff := if window ≤ now then now - window else now
  let count := (d.recentMessages.filter fun t => decide (cutoff < t)).length
  let windowMins := window / 60
  if 0 < windowMins then (count : ℚ) / windowMins else 0

/-- The status-classification block of `src/state/device_tracker.rs`,
duplicated verbatim in the source between `process_message` ("update
status inline") and `update_device_status`: Stale past the 5-minute
threshold since `last_seen`, else by message rate, else Warning once any
message was counted, else Unknown. -/
def classifyStatus (tr : DeviceTracker) (d : DeviceHealth) (now : ℚ) :
    HealthStatus :=
  let rate := d.messagesPerMinute tr.rateWindow now
  let tsl := if d.lastSeen ≤ now then now - d.lastSeen else 0
  if 300 < tsl then HealthStatus.stale
  else if tr.healthyThreshold ≤ rate then HealthStatus.healthy
  else if tr.warningThreshold ≤ rate then HealthStatus.warning
  else if 0 < d.messageCount then HealthStatus.warning
  else HealthStatus.unknown

/-- `DeviceTracker::process_message` at instant `now`: attribute the
message to the device extracted from the topic (if any), refresh its
counters, `last_seen` and recent-message window, then classify its status
inline. -/
def DeviceTracker.processMessage (tr : DeviceTracker) (topic : Str)
    (payloadSize : Nat) (now : ℚ) : DeviceTracker :=
  match extractDeviceId topic with
  | none => tr
  | some id =>
      let d0 := (assocFind id tr.devices).getD (DeviceHealth.new id now)
      let d1 := { d0 with
        messageCount := d0.messageCount + 1
        lastSeen := now
        lastPayloadSize := payloadSize
        recentMessages := d0.recentMessages ++ [now] }
      let d2 := if d1.deviceType = none then
          { d1 with deviceType := extractDeviceType topic } else d1
      let d3 := if topic ∈ d2.topics then d2
        else { d2 with topics := d2.topics ++ [topic] }
      let cutoff := if tr.rateWindow ≤ now then now - tr.rateWindow else now
      let d4 := { d3 with
        recentMessages := d3.recentMessages.filter fun t =>
          decide (cutoff < t) }
      { tr with
        devices := assocUpsert id
          ({ d4 with status := classifyStatus tr d4 now }) tr.devices }

/-- `DeviceTracker::update_device_status` (the separate periodic update;
the only source of `Stale`). -/
def DeviceTracker.updateDeviceStatus (tr : DeviceTracker) (deviceId : Str)
    (now : ℚ) : DeviceTracker :=
  match assocFind deviceId tr.devices with
  | some d =>
      { tr with
        devices := assocUpsert deviceId
          ({ d with status := classifyStatus tr d now }) tr.devices }
  | none => tr

theorem classifyStatus_fresh (tr : DeviceTracker) (d : DeviceHealth)
    (now : ℚ) (hseen : d.lastSeen = now) (hmc : 0 < d.messageCount) :
    classifyStatus tr d now = HealthStatus.healthy ∨
    classifyStatus tr d now = HealthStatus.warning := by
  unfold classifyStatus
  rw [hseen]
  simp only [le_refl, ite_true, sub_self]
  rw [if_neg (by norm_num : ¬ (300 : ℚ) < 0)]
  split
  · exact Or.inl rfl
  · split
    · exact Or.inr rfl
    · exact Or.inr rfl

/-- C10: immediately after `process_message` attributes a message to a
device (the topic has a recognized prefix), that device's status is
Healthy or Warning — never Stale (its `last_seen` was just refreshed to
the current instant, so the staleness branch cannot fire within the call)
and never Unknown (`message_count ≥ 1` forces at least Warning). -/
theorem C10_fresh_message_not_stale (tr : DeviceTracker) (topic : Str)
    (payloadSize : Nat) (now : ℚ) (id : Str)
    (hid : extractDeviceId topic = some id) :
    ∃ d : DeviceHealth,
      assocFind id (tr.processMessage topic payloadSize now).devices
        = some d ∧
      (d.status = HealthStatus.healthy ∨ d.status = HealthStatus.warning)
    := by
  unfold DeviceTracker.processMessage
  rw [hid]
  simp only
  refine ⟨_, assocFind_upsert_self _ _ _, ?_⟩
  apply classifyStatus_fresh
  · simp only [apply_ite (fun d : DeviceHealth => d.lastSeen), ite_self]
  · simp only [apply_ite (fun d : DeviceHealth => d.messageCount),
      ite_self]
    exact Nat.succ_pos _

/-- Witness for `C10_fresh_message_not_stale`: a fresh tracker receiving
one telemetry message. -/
theorem C10_fresh_message_not_stale_witness :
    ∃ d : DeviceHealth,
      assocFind "dev1".data
        (DeviceTracker.new.processMessage "telemetry/dev1/meter".data 100
          0).devices = some d ∧
      (d.status = HealthStatus.healthy ∨ d.status = HealthStatus.warning)
    :=
  C10_fresh_message_not_stale DeviceTracker.new "telemetry/dev1/meter".data
    100 0 "dev1".data (by decide)

end Mqtop
